import Mathlib

/-!
Shallow embedding of `rollbar/lib/transforms/shortener.py` (the
`ShortenerTransform` size-capping transform) together with the parts of the
Python runtime it relies on (`reprlib.Repr`, built-in `str`/`repr` of the
value shapes that can occur, string slicing, truthiness).

Modelling scope, fixed once for the whole file:
  * Python runtime values are modelled by the inductive type `Value`.
    Numbers are modelled as arbitrary-precision integers (`int`); `float` and
    `bool` values are outside the model.  Strings are modelled as `List Char`
    (code points), `bytes` are outside the model.  `array.array` values are
    modelled as arrays of signed integers with typecode drawn as a single
    character (the concrete letter used in reprs is fixed to the letter l).
  * An opaque object (`Value.obj cls sform oid`) has class name `cls`, an
    identity `oid` (Python `id`), and `sform : Option Str`: when `some s`,
    both `str(obj)` and `repr(obj)` return `s`; when `none`, both raise.
  * A mapping-like object that is not a `dict` (an instance of
    `collections.abc.Mapping` such as a `UserDict`) is `Value.mapLike es s`
    with entries `es` and string form `s` for `str`/`repr`.
  * `Value.dict` models an insertion-ordered Python dict; well-formed dicts
    have pairwise distinct keys (Python cannot construct duplicates); where a
    result depends on key lookup the embedding uses the first matching entry.
  * Functions that re-enter values they have just rebuilt (the traversal) or
    that iterate over reordered copies (reprlib) are written with an explicit
    fuel argument so that they are structurally recursive and kernel
    computable; public wrappers supply fuel that is generous for the value
    being processed, and all general theorems are proved for every fuel, or
    carry an explicit fuel bound where success must be shown.
-/

/-- Python strings, modelled as lists of code points. -/
abbrev Str := List Char

/-- Embeds a Lean string literal as a Python string value. -/
def pchars (s : String) : Str := s.toList

/-- The single-quote character (written via its code point to keep the
embedding free of quote-escape noise). -/
def squoteC : Char := Char.ofNat 39

/-- The double-quote character. -/
def dquoteC : Char := Char.ofNat 34

/-- The backslash character. -/
def bslashC : Char := Char.ofNat 92

/-- The opening curly brace character. -/
def obraceC : Char := Char.ofNat 123

/-- The closing curly brace character. -/
def cbraceC : Char := Char.ofNat 125

/-- Runtime values of the Python fragment the shortener operates on. -/
inductive Value where
  | str (s : Str)
  | int (n : Int)
  | dict (es : List (Value × Value))
  | list (xs : List Value)
  | tuple (xs : List Value)
  | set (xs : List Value)
  | frozenset (xs : List Value)
  | array (xs : List Int)
  | deque (xs : List Value)
  | mapLike (es : List (Value × Value)) (sform : Str)
  | none
  | obj (cls : Str) (sform : Option Str) (oid : Nat)

/-- Exceptions the embedded code can raise.  `outOfFuel` is an artifact of
the fuel-based embedding and is unreachable under the wrappers' fuel. -/
inductive PyErr where
  | typeError (msg : Str)
  | raised (msg : Str)
  | outOfFuel

mutual
/-- Structural equality of values (Python `==` on the modelled fragment;
opaque objects compare by identity). -/
def vbeq : Value → Value → Bool
  | .str a, .str b => a == b
  | .int a, .int b => a == b
  | .dict a, .dict b => ebeq a b
  | .list a, .list b => lbeq a b
  | .tuple a, .tuple b => lbeq a b
  | .set a, .set b => lbeq a b
  | .frozenset a, .frozenset b => lbeq a b
  | .array a, .array b => a == b
  | .deque a, .deque b => lbeq a b
  | .mapLike a sa, .mapLike b sb => ebeq a b && sa == sb
  | .none, .none => true
  | .obj _ _ i, .obj _ _ j => i == j
  | _, _ => false

/-- Elementwise equality of value lists. -/
def lbeq : List Value → List Value → Bool
  | [], [] => true
  | a :: as, b :: bs => vbeq a b && lbeq as bs
  | _, _ => false

/-- Elementwise equality of key/value entry lists. -/
def ebeq : List (Value × Value) → List (Value × Value) → Bool
  | [], [] => true
  | a :: as, b :: bs => vbeq a.1 b.1 && vbeq a.2 b.2 && ebeq as bs
  | _, _ => false
end

/-- Python truthiness of a value (`bool(v)`): collections by emptiness,
numbers by zero test, `None` false, plain objects true. -/
def pyTruthy : Value → Bool
  | .str s => !s.isEmpty
  | .int n => n != 0
  | .dict es => !es.isEmpty
  | .list xs => !xs.isEmpty
  | .tuple xs => !xs.isEmpty
  | .set xs => !xs.isEmpty
  | .frozenset xs => !xs.isEmpty
  | .array xs => !xs.isEmpty
  | .deque xs => !xs.isEmpty
  | .mapLike es _ => !es.isEmpty
  | .none => false
  | .obj _ _ _ => true

/-- Decimal string form of an integer, `str(n)` in Python. -/
def intStr (n : Int) : Str :=
  if n < 0 then '-' :: Nat.toDigits 10 n.natAbs else Nat.toDigits 10 n.natAbs

/-- Python `len` of the sized values the shortener measures (strings,
sequences, sets and mappings); never consulted on other shapes. -/
def pyLen : Value → Nat
  | .str s => s.length
  | .dict es => es.length
  | .list xs => xs.length
  | .tuple xs => xs.length
  | .set xs => xs.length
  | .frozenset xs => xs.length
  | .array xs => xs.length
  | .deque xs => xs.length
  | .mapLike es _ => es.length
  | _ => 0

/-- Test for `isinstance(v, dict)`: only the built-in dict type. -/
def isDictV : Value → Bool
  | .dict _ => true
  | _ => false

/-- Test for `isinstance(v, collections.abc.Mapping)`: built-in dicts and
structurally mapping-like objects. -/
def isMappingABC : Value → Bool
  | .dict _ => true
  | .mapLike _ _ => true
  | _ => false

/-- Modelled from the spec: `string_types` from `rollbar.lib` is not under
src/; the spec classifies text values as the leaf text category, so the type
tuple is modelled as matching exactly the string values. -/
def isStringType : Value → Bool
  | .str _ => true
  | _ => false

/-- Modelled from the spec: `number_types` from `rollbar.lib` is not under
src/; the spec's integer/numeric-like category is modelled as the integer
values (floating point is outside this embedding). -/
def isNumberType : Value → Bool
  | .int _ => true
  | _ => false

/-- Modelled from the spec: `sequence_types` from `rollbar.lib` is not under
src/; the spec's traversal treats the ordered container types — list, tuple,
fixed-length array and double-ended queue — as sequences and explicitly
excludes text, and dispatches unordered sets to the other strategy. -/
def isSequenceType : Value → Bool
  | .list _ => true
  | .tuple _ => true
  | .array _ => true
  | .deque _ => true
  | _ => false

mutual
/-- Structural size of a value, used to choose fuel for the fuel-based
recursions and as the measure of well-founded proofs. -/
def vsize : Value → Nat
  | .str _ => 1
  | .int _ => 1
  | .none => 1
  | .obj _ _ _ => 1
  | .dict es => 1 + esize es
  | .mapLike es _ => 1 + esize es
  | .list xs => 1 + lsize xs
  | .tuple xs => 1 + lsize xs
  | .set xs => 1 + lsize xs
  | .frozenset xs => 1 + lsize xs
  | .array xs => 2 + xs.length
  | .deque xs => 1 + lsize xs

/-- Structural size of a value list. -/
def lsize : List Value → Nat
  | [] => 1
  | x :: r => 1 + vsize x + lsize r

/-- Structural size of an entry list. -/
def esize : List (Value × Value) → Nat
  | [] => 1
  | kv :: r => 1 + vsize kv.1 + vsize kv.2 + esize r
end

/-- Test for `isinstance(v, list)`. -/
def isListV : Value → Bool
  | .list _ => true
  | _ => false

/-- Test for `isinstance(v, tuple)`. -/
def isTupleV : Value → Bool
  | .tuple _ => true
  | _ => false

/-- Test for `isinstance(v, set)`. -/
def isSetV : Value → Bool
  | .set _ => true
  | _ => false

/-- Test for `isinstance(v, frozenset)`. -/
def isFrozensetV : Value → Bool
  | .frozenset _ => true
  | _ => false

/-- Test for `isinstance(v, array.array)`. -/
def isArrayV : Value → Bool
  | .array _ => true
  | _ => false

/-- Test for `isinstance(v, collections.deque)`. -/
def isDequeV : Value → Bool
  | .deque _ => true
  | _ => false

/-- Lowercase hexadecimal digit for a value below 16. -/
def hexDigit (n : Nat) : Char :=
  if n < 10 then Char.ofNat (48 + n) else Char.ofNat (87 + n)

/-- Escape of one character inside a Python string repr that uses quote
character `q`: backslash and the quote are backslash-escaped, newline,
carriage return and tab use their mnemonic escapes, other nonprintable
characters (code points below 32, or 127 through 160) use a two-digit hex
escape, everything else stands for itself. -/
def escChar (q : Char) (c : Char) : Str :=
  if c = bslashC then [bslashC, bslashC]
  else if c = q then [bslashC, q]
  else if c = '\n' then [bslashC, 'n']
  else if c = '\r' then [bslashC, 'r']
  else if c = '\t' then [bslashC, 't']
  else if c.toNat < 32 || (127 ≤ c.toNat && c.toNat ≤ 160) then
    [bslashC, 'x', hexDigit (c.toNat / 16 % 16), hexDigit (c.toNat % 16)]
  else [c]

/-- Built-in `repr` of a Python string: single quotes, switching to double
quotes when the text contains a single quote but no double quote. -/
def pyReprOfStr (x : Str) : Str :=
  let q := if x.contains squoteC && !(x.contains dquoteC) then dquoteC else squoteC
  q :: (x.map (escChar q)).flatten ++ [q]

/-- Python slice `x[k:]` where `k` may be negative (counted from the end and
clamped at zero, as in CPython slice semantics). -/
def sliceFrom (x : Str) (k : Int) : Str :=
  if k < 0 then x.drop (max 0 (k + x.length)).toNat else x.drop k.toNat

/-- Comma-style join of string pieces with a separator (`', '.join(pieces)`). -/
def pyJoin (sep : Str) : List Str → Str
  | [] => []
  | [p] => p
  | p :: rest => p ++ sep ++ pyJoin sep rest

/-- Lookup `es[k]` by the first matching key; well-formed dicts have distinct
keys, and the shortener only looks up keys drawn from the dict itself, so the
`Value.none` default is unreachable. -/
def dictGet (es : List (Value × Value)) (k : Value) : Value :=
  match es.find? (fun kv => vbeq kv.1 k) with
  | some kv => kv.2
  | Option.none => Value.none

/-- State of a `reprlib.Repr` instance: the per-category maxima (with the
CPython defaults), plus the bag of attributes set by `setattr` under names
that are not recognized size attributes (they are never read back). -/
structure PyRepr where
  maxlevel : Nat := 6
  maxtuple : Nat := 6
  maxlist : Nat := 6
  maxarray : Nat := 5
  maxdict : Nat := 4
  maxset : Nat := 6
  maxfrozenset : Nat := 6
  maxdeque : Nat := 6
  maxstring : Nat := 30
  maxlong : Nat := 40
  maxother : Nat := 30
  extra : List (Str × Nat) := []

/-- The `reprlib` fill value marking truncation. -/
def fillv : Str := pchars "..."

/-- The size attributes a `reprlib.Repr` object carries (the recognized
override names; `_get_max_size` reads exactly the `max<category>` ones). -/
def knownSizeAttrs : List Str :=
  [pchars "maxlevel", pchars "maxtuple", pchars "maxlist", pchars "maxarray",
   pchars "maxdict", pchars "maxset", pchars "maxfrozenset",
   pchars "maxdeque", pchars "maxstring", pchars "maxlong", pchars "maxother"]

/-- Embeds `setattr(repr_obj, name, size)`: a recognized size attribute is
replaced, any other name becomes a plain (never consulted) attribute; in
Python `setattr` on a `reprlib.Repr` instance succeeds for every name. -/
def setattrRepr (r : PyRepr) (name : Str) (v : Nat) : PyRepr :=
  if name = pchars "maxlevel" then { r with maxlevel := v }
  else if name = pchars "maxtuple" then { r with maxtuple := v }
  else if name = pchars "maxlist" then { r with maxlist := v }
  else if name = pchars "maxarray" then { r with maxarray := v }
  else if name = pchars "maxdict" then { r with maxdict := v }
  else if name = pchars "maxset" then { r with maxset := v }
  else if name = pchars "maxfrozenset" then { r with maxfrozenset := v }
  else if name = pchars "maxdeque" then { r with maxdeque := v }
  else if name = pchars "maxstring" then { r with maxstring := v }
  else if name = pchars "maxlong" then { r with maxlong := v }
  else if name = pchars "maxother" then { r with maxother := v }
  else { r with extra := r.extra ++ [(name, v)] }

/-- Integer payload of a value (defined only where `isNumberType` holds). -/
def intOfV : Value → Int
  | .int n => n
  | _ => 0

/-- String payload of a value (defined only where `isStringType` holds). -/
def strOfV : Value → Str
  | .str s => s
  | _ => []

/-- Code-point lexicographic comparison of strings (Python string order). -/
def lexLe : Str → Str → Bool
  | [], _ => true
  | _ :: _, [] => false
  | a :: as, b :: bs =>
    if a.toNat < b.toNat then true
    else if b.toNat < a.toNat then false
    else lexLe as bs

/-- Embeds `reprlib._possibly_sorted`: `sorted(x)` when the elements are
mutually comparable, otherwise the iteration order.  The model sorts the two
homogeneous cases that occur in practice (all integers, all strings) with a
stable sort, and keeps the original order elsewhere (where CPython `sorted`
raises `TypeError` and the original falls back to `list(x)`). -/
def possiblySorted (xs : List Value) : List Value :=
  if xs.all isNumberType then
    List.insertionSort (fun a b => intOfV a ≤ intOfV b) xs
  else if xs.all isStringType then
    List.insertionSort (fun a b => lexLe (strOfV a) (strOfV b) = true) xs
  else xs

/-- Embeds `reprlib.Repr.repr_str`.  The index arithmetic
`i = max(0, (maxstring-3)//2)` and `j = max(0, maxstring-3-i)` coincides with
truncated natural subtraction and division, since the floor division of a
negative numerator is clamped to zero by the outer `max`. -/
def repr_str (r : PyRepr) (x : Str) : Str :=
  let s := pyReprOfStr (x.take r.maxstring)
  if s.length ≤ r.maxstring then s
  else
    let i := (r.maxstring - 3) / 2
    let j := r.maxstring - 3 - i
    let s2 := pyReprOfStr (x.take i ++ sliceFrom x ((x.length : Int) - (j : Int)))
    s2.take i ++ fillv ++ sliceFrom s2 ((s2.length : Int) - (j : Int))

/-- Embeds `reprlib.Repr.repr_int` (same index arithmetic as `repr_str`). -/
def repr_int (r : PyRepr) (n : Int) : Str :=
  let s := intStr n
  if s.length ≤ r.maxlong then s
  else
    let i := (r.maxlong - 3) / 2
    let j := r.maxlong - 3 - i
    s.take i ++ fillv ++ sliceFrom s ((s.length : Int) - (j : Int))

/-- Middle truncation of an instance repr to `maxother` characters (the tail
of `reprlib.Repr.repr_instance`). -/
def truncOther (r : PyRepr) (s : Str) : Str :=
  if s.length ≤ r.maxother then s
  else
    let i := (r.maxother - 3) / 2
    let j := r.maxother - 3 - i
    s.take i ++ fillv ++ sliceFrom s ((s.length : Int) - (j : Int))

/-- The `'<%s instance at %#x>'` descriptor used when `repr` raises. -/
def fallbackInstanceStr (cls : Str) (oid : Nat) : Str :=
  '<' :: cls ++ pchars " instance at 0x" ++ Nat.toDigits 16 oid ++ ['>']

/-- Embeds `reprlib.Repr.repr_instance`, reachable exactly for the values
whose type name has no dedicated `repr_` method in this model (`None`,
opaque objects, mapping-like objects): built-in `repr`, with the failure
caught and replaced by the generic descriptor, then middle truncation. -/
def repr_instance (r : PyRepr) (x : Value) : Str :=
  match x with
  | .none => truncOther r (pchars "None")
  | .obj cls sf oid =>
    match sf with
    | some s => truncOther r s
    | Option.none => fallbackInstanceStr cls oid
  | .mapLike _ s => truncOther r s
  | _ => []

mutual
/-- Embeds `reprlib.Repr.repr1` (dispatch on the value's type, recursion
capped by `level`); the fuel argument makes the recursion structural, and
exhausted fuel yields the empty string (the wrapper always supplies enough). -/
def repr1F (r : PyRepr) : Nat → Value → Nat → Str
  | 0, _, _ => []
  | fuel+1, x, level =>
    match x with
    | .str s => repr_str r s
    | .int n => repr_int r n
    | .dict es =>
      if es.length = 0 then [obraceC, cbraceC]
      else if level = 0 then obraceC :: fillv ++ [cbraceC]
      else
        let keys := (possiblySorted (es.map Prod.fst)).take r.maxdict
        let pieces := dictPiecesF r fuel es keys (level - 1)
        let pieces := if r.maxdict < es.length then pieces ++ [fillv] else pieces
        obraceC :: pyJoin (pchars ", ") pieces ++ [cbraceC]
    | .list xs => reprIterF r fuel xs (pchars "[") (pchars "]") r.maxlist false level
    | .tuple xs => reprIterF r fuel xs (pchars "(") (pchars ")") r.maxtuple true level
    | .set xs =>
      if xs.length = 0 then pchars "set()"
      else reprIterF r fuel (possiblySorted xs) [obraceC] [cbraceC] r.maxset false level
    | .frozenset xs =>
      if xs.length = 0 then pchars "frozenset()"
      else reprIterF r fuel (possiblySorted xs)
        (pchars "frozenset(" ++ [obraceC]) (cbraceC :: pchars ")") r.maxfrozenset false level
    | .array xs =>
      if xs.length = 0 then pchars "array(" ++ [squoteC, 'l', squoteC] ++ pchars ")"
      else
        let left := pchars "array(" ++ [squoteC, 'l', squoteC] ++ pchars ", ["
        if level = 0 then left ++ fillv ++ pchars "])"
        else
          let pieces := (xs.take r.maxarray).map (repr_int r)
          let pieces := if r.maxarray < xs.length then pieces ++ [fillv] else pieces
          left ++ pyJoin (pchars ", ") pieces ++ pchars "])"
    | .deque xs => reprIterF r fuel xs (pchars "deque([") (pchars "])") r.maxdeque false level
    | x => repr_instance r x
  termination_by structural fuel => fuel

/-- Embeds `reprlib.Repr._repr_iterable` for element lists: at level zero a
nonempty iterable collapses to the fill value, otherwise the first `maxiter`
element reprs are joined, with the fill value appended when elements were
dropped, and a trailing comma for one-element tuples. -/
def reprIterF (r : PyRepr) : Nat → List Value → Str → Str → Nat → Bool → Nat → Str
  | 0, _, _, _, _, _, _ => []
  | fuel+1, xs, left, right, maxiter, trail, level =>
    let n := xs.length
    if level = 0 && !(n = 0) then left ++ fillv ++ right
    else
      let pieces := seqPiecesF r fuel xs maxiter (level - 1)
      let pieces := if maxiter < n then pieces ++ [fillv] else pieces
      let s := pyJoin (pchars ", ") pieces
      let right := if n = 1 && trail then ',' :: right else right
      left ++ s ++ right
  termination_by structural fuel => fuel

/-- Reprs of the first `maxiter` elements at the given level (the
`islice`-bounded piece list of `_repr_iterable`). -/
def seqPiecesF (r : PyRepr) : Nat → List Value → Nat → Nat → List Str
  | 0, _, _, _ => []
  | _+1, [], _, _ => []
  | _+1, _ :: _, 0, _ => []
  | fuel+1, x :: rest, maxiter+1, level =>
    repr1F r fuel x level :: seqPiecesF r fuel rest maxiter level
  termination_by structural fuel => fuel

/-- Key/value pieces of `reprlib.Repr.repr_dict` for the already sorted and
`islice`-bounded key list. -/
def dictPiecesF (r : PyRepr) : Nat → List (Value × Value) → List Value → Nat → List Str
  | 0, _, _, _ => []
  | _+1, _, [], _ => []
  | fuel+1, es, k :: ks, level =>
    (repr1F r fuel k level ++ pchars ": " ++ repr1F r fuel (dictGet es k) level)
      :: dictPiecesF r fuel es ks level
  termination_by structural fuel => fuel
end

/-- Embeds `reprlib.Repr.repr` (`repr1` at `maxlevel`); the fuel is generous
for the value's structural size. -/
def PyRepr.repr (r : PyRepr) (x : Value) : Str :=
  repr1F r (4 * (vsize x + 2)) x r.maxlevel

mutual
/-- Built-in `repr` of a value (full, untruncated); raises exactly when the
repr of a reachable opaque object raises. -/
def builtinRepr : Value → Except PyErr Str
  | .str s => pure (pyReprOfStr s)
  | .int n => pure (intStr n)
  | .dict es => do
    pure (obraceC :: pyJoin (pchars ", ") (← bReprE es) ++ [cbraceC])
  | .list xs => do
    pure ('[' :: pyJoin (pchars ", ") (← bReprL xs) ++ [']'])
  | .tuple xs => do
    let ps ← bReprL xs
    let inner := pyJoin (pchars ", ") ps
    let inner := if xs.length = 1 then inner ++ [','] else inner
    pure ('(' :: inner ++ [')'])
  | .set xs => do
    if xs.length = 0 then pure (pchars "set()")
    else pure (obraceC :: pyJoin (pchars ", ") (← bReprL xs) ++ [cbraceC])
  | .frozenset xs => do
    if xs.length = 0 then pure (pchars "frozenset()")
    else pure (pchars "frozenset(" ++ [obraceC] ++
      pyJoin (pchars ", ") (← bReprL xs) ++ [cbraceC] ++ pchars ")")
  | .array xs =>
    if xs.length = 0 then pure (pchars "array(" ++ [squoteC, 'l', squoteC] ++ pchars ")")
    else pure (pchars "array(" ++ [squoteC, 'l', squoteC] ++ pchars ", [" ++
      pyJoin (pchars ", ") (xs.map intStr) ++ pchars "])")
  | .deque xs => do
    pure (pchars "deque([" ++ pyJoin (pchars ", ") (← bReprL xs) ++ pchars "])")
  | .mapLike _ s => pure s
  | .none => pure (pchars "None")
  | .obj cls sf _ =>
    match sf with
    | some s => pure s
    | Option.none => throw (.raised cls)

/-- Built-in reprs of a list of elements. -/
def bReprL : List Value → Except PyErr (List Str)
  | [] => pure []
  | x :: rest => do pure ((← builtinRepr x) :: (← bReprL rest))

/-- Built-in `k: v` repr pieces of dict entries. -/
def bReprE : List (Value × Value) → Except PyErr (List Str)
  | [] => pure []
  | kv :: rest => do
    pure (((← builtinRepr kv.1) ++ pchars ": " ++ (← builtinRepr kv.2)) :: (← bReprE rest))
end

/-- Built-in `str` of a value: identity on strings, the object's string form
for opaque and mapping-like objects (raising when it is absent), and the
built-in `repr` for everything else. -/
def pyStrBuiltin : Value → Except PyErr Str
  | .str s => pure s
  | .obj cls sf _ =>
    match sf with
    | some s => pure s
    | Option.none => throw (.raised cls)
  | .mapLike _ s => pure s
  | v => builtinRepr v

/-- Configuration state of a `ShortenerTransform`: the `safe_repr` flag, the
eligibility key set, and the `reprlib.Repr` instance (source attribute
`self._repr`) that carries the per-category maxima. -/
structure ShortenerTransform where
  safe_repr : Bool := true
  keys : Option (List Value) := Option.none
  rpr : PyRepr := {}

/-- Pure core of `ShortenerTransform.__init__`: stores the flag and the key
set, builds a fresh `reprlib.Repr` and applies `setattr(self._repr, name,
size)` for each override in order. -/
def mkShortener (safe_repr : Bool) (keys : Option (List Value))
    (sizes : List (Str × Nat)) : ShortenerTransform :=
  { safe_repr := safe_repr
    keys := keys
    rpr := sizes.foldl (fun r p => setattrRepr r p.1 p.2) {} }

/-- Embeds `ShortenerTransform.__init__` as fallible construction: none of
its statements can raise (in particular `setattr` accepts every attribute
name), so the result is always `Except.ok`. -/
def ShortenerTransform.init (safe_repr : Bool) (keys : Option (List Value))
    (sizes : List (Str × Nat)) : Except PyErr ShortenerTransform :=
  .ok (mkShortener safe_repr keys sizes)

/-- Embeds `ShortenerTransform._get_max_size`: walk `_type_name_mapping` in
insertion order (string, long, mapping, list, tuple, set, frozenset, array,
deque, other), return `getattr(self._repr, 'max' + name)` for the first
matching type, with the mapping category reading the `maxdict` attribute and
`maxother` as the fallthrough. -/
def get_max_size (t : ShortenerTransform) (obj : Value) : Nat :=
  if isStringType obj then t.rpr.maxstring
  else if isNumberType obj then t.rpr.maxlong
  else if isMappingABC obj then t.rpr.maxdict
  else if isListV obj then t.rpr.maxlist
  else if isTupleV obj then t.rpr.maxtuple
  else if isSetV obj then t.rpr.maxset
  else if isFrozensetV obj then t.rpr.maxfrozenset
  else if isArrayV obj then t.rpr.maxarray
  else if isDequeV obj then t.rpr.maxdeque
  else t.rpr.maxother

/-- Embeds `ShortenerTransform._shorten_sequence`: within the limit the
value is returned unchanged, otherwise it is replaced by the `reprlib`
summary string. -/
def shorten_sequence (r : PyRepr) (obj : Value) (max_keys : Nat) : Value :=
  if pyLen obj ≤ max_keys then obj else .str (r.repr obj)

/-- Embeds `ShortenerTransform._shorten_mapping`: within the limit the
mapping is returned unchanged, otherwise a new dict is built from the first
`max_keys` keys in iteration order, each bound to its looked-up value
(`{k: obj[k] for k in itertools.islice(obj.keys(), max_keys)}`).  Only
called on built-in dicts. -/
def shorten_mapping (obj : Value) (max_keys : Nat) : Value :=
  match obj with
  | .dict es =>
    if es.length ≤ max_keys then .dict es
    else .dict (((es.map Prod.fst).take max_keys).map (fun k => (k, dictGet es k)))
  | v => v

/-- Embeds `ShortenerTransform._shorten_basic`: keep the value when its
`str` form fits in `max_len`, otherwise replace it by the `reprlib` summary.
Only called on numbers, whose `str` cannot raise. -/
def shorten_basic (r : PyRepr) (obj : Value) (max_len : Nat) : Value :=
  match obj with
  | .int n => if (intStr n).length ≤ max_len then .int n else .str (r.repr (.int n))
  | v => v

/-- Embeds `ShortenerTransform._shorten_other`: `None` is returned directly;
otherwise, under `safe_repr` the object is first converted with `str` (an
exception from the object's conversion propagates), and the result is passed
through the `reprlib` summary. -/
def shorten_other (t : ShortenerTransform) (obj : Value) : Except PyErr Value :=
  match obj with
  | .none => pure Value.none
  | obj =>
    if t.safe_repr then do
      let s ← pyStrBuiltin obj
      pure (.str (t.rpr.repr (.str s)))
    else
      pure (.str (t.rpr.repr obj))

/-- TypeError message for item assignment into a tuple. -/
def tupleAssignMsg : Str := pchars "tuple object does not support item assignment"

/-- TypeError message for storing a non-integer into an array. -/
def arrayAssignMsg : Str := pchars "array item must be an integer"

mutual
/-- Embeds `ShortenerTransform._shorten`: compute the limit for the value's
category, then dispatch — dicts through the mapping strategy followed by the
traversal, text through the sequence strategy alone, other sequences through
the sequence strategy followed by the traversal, numbers through the basic
strategy with the `maxlong` limit, everything else through the other
strategy. -/
def shortenF (t : ShortenerTransform) : Nat → Value → Except PyErr Value
  | 0, _ => throw .outOfFuel
  | fuel+1, val =>
    let max_size := get_max_size t val
    if isDictV val then
      traverseF t fuel (shorten_mapping val max_size)
    else if isStringType val then
      pure (shorten_sequence t.rpr val max_size)
    else if isSequenceType val then
      traverseF t fuel (shorten_sequence t.rpr val max_size)
    else if isNumberType val then
      pure (shorten_basic t.rpr val t.rpr.maxlong)
    else
      shorten_other t val
  termination_by structural fuel => fuel

/-- Embeds `ShortenerTransform.traverse_obj`.  The source tests
`isinstance(d, dict)` and `isinstance(d, sequence_types)` and runs one
in-place update loop over items or indices; the loop is embedded per
constructor because Python's `d[i] = x` succeeds on the mutable sequences
(list, array, deque) and raises `TypeError` on tuples, and storing a
non-integer into an `array` also raises `TypeError`.  Values that are
neither dicts nor sequences are returned unchanged. -/
def traverseF (t : ShortenerTransform) : Nat → Value → Except PyErr Value
  | 0, _ => throw .outOfFuel
  | fuel+1, d =>
    match d with
    | .dict es => do pure (.dict (← dictItemsF t fuel es))
    | .list xs => do pure (.list (← seqItemsF t fuel xs))
    | .deque xs => do pure (.deque (← seqItemsF t fuel xs))
    | .array xs => do pure (.array (← arrayItemsF t fuel xs))
    | .tuple [] => pure (.tuple [])
    | .tuple (x :: _) => do
      let _ ← tupleFirstF t fuel x
      throw (.typeError tupleAssignMsg)
    | d => pure d
  termination_by structural fuel => fuel

/-- One pass of the `for k, v in d.items()` loop of `traverse_obj`: each
value is replaced by the shortened-and-traversed dict, the
shortened-and-traversed sequence, or the result of `_shorten`. -/
def dictItemsF (t : ShortenerTransform) :
    Nat → List (Value × Value) → Except PyErr (List (Value × Value))
  | 0, _ => throw .outOfFuel
  | _+1, [] => pure []
  | fuel+1, (k, v) :: rest => do
    let v2 ←
      if isDictV v then
        traverseF t fuel (shorten_mapping v (get_max_size t v))
      else if isSequenceType v then
        traverseF t fuel (shorten_sequence t.rpr v (get_max_size t v))
      else
        shortenF t fuel v
    let rest2 ← dictItemsF t fuel rest
    pure ((k, v2) :: rest2)
  termination_by structural fuel => fuel

/-- One pass of the `for i in range(len(d))` loop of `traverse_obj` over a
mutable value sequence (list or deque). -/
def seqItemsF (t : ShortenerTransform) : Nat → List Value → Except PyErr (List Value)
  | 0, _ => throw .outOfFuel
  | _+1, [] => pure []
  | fuel+1, x :: rest => do
    let x2 ←
      if isDictV x then
        traverseF t fuel (shorten_mapping x (get_max_size t x))
      else if isSequenceType x then
        traverseF t fuel (shorten_sequence t.rpr x (get_max_size t x))
      else
        shortenF t fuel x
    let rest2 ← seqItemsF t fuel rest
    pure (x2 :: rest2)
  termination_by structural fuel => fuel

/-- The index loop of `traverse_obj` over an `array`: the elements are
integers, so each falls to the `_shorten` branch; storing the result back
raises `TypeError` unless it is still an integer. -/
def arrayItemsF (t : ShortenerTransform) : Nat → List Int → Except PyErr (List Int)
  | 0, _ => throw .outOfFuel
  | _+1, [] => pure []
  | fuel+1, n :: rest => do
    let x2 ← shortenF t fuel (.int n)
    match x2 with
    | .int m => do pure (m :: (← arrayItemsF t fuel rest))
    | _ => throw (.typeError arrayAssignMsg)
  termination_by structural fuel => fuel

/-- First iteration of the index loop of `traverse_obj` over a nonempty
tuple: the right-hand side of `d[i] = ...` is evaluated (only the
`_shorten` branch can itself raise), then the item assignment raises
`TypeError`; the raise is performed by the caller. -/
def tupleFirstF (t : ShortenerTransform) : Nat → Value → Except PyErr Unit
  | 0, _ => throw .outOfFuel
  | fuel+1, x =>
    if isDictV x then pure ()
    else if isSequenceType x then pure ()
    else do
      let _ ← shortenF t fuel x
      pure ()
  termination_by structural fuel => fuel
end

/-- Wrapper for `ShortenerTransform._shorten` with adequate fuel. -/
def ShortenerTransform.shorten (t : ShortenerTransform) (val : Value) :
    Except PyErr Value :=
  shortenF t (2 * vsize val + 2) val

/-- Wrapper for `ShortenerTransform.traverse_obj` with adequate fuel. -/
def ShortenerTransform.traverse_obj (t : ShortenerTransform) (d : Value) :
    Except PyErr Value :=
  traverseF t (2 * vsize d + 1) d

/-- Modelled from the spec: `key_in` from `rollbar.lib` is not under src/;
the spec's eligibility set is an optional set of field-name patterns where
absence means match everything, so matching is modelled as membership in the
optional key list. -/
def key_in (key : Value) (keys : Option (List Value)) : Bool :=
  match keys with
  | Option.none => true
  | some ks => ks.any (fun k => vbeq k key)

/-- Embeds `ShortenerTransform._should_shorten`: a falsy key is never
shortened; otherwise defer to `key_in`. -/
def should_shorten (t : ShortenerTransform) (val key : Value) : Bool :=
  if !(pyTruthy key) then false else key_in key t.keys

/-- Embeds `ShortenerTransform.default`, the transform entry point: shorten
when `_should_shorten` holds, otherwise return the value unmodified (the
base `Transform.default`, modelled from the spec as the identity since
`rollbar.lib.transform` is not under src/). -/
def ShortenerTransform.default (t : ShortenerTransform) (o : Value)
    (key : Value := Value.none) : Except PyErr Value :=
  if should_shorten t o key then t.shorten o else pure o

mutual
/-- Formalization of the spec's output contract (claim C1 as stated): every
container holds at most its category's configured element/key count, at
every nesting level, and every scalar or text leaf has a string form within
its category's configured length limit. -/
def withinLimitsB (r : PyRepr) : Value → Bool
  | .str s => decide (s.length ≤ r.maxstring)
  | .int n => decide ((intStr n).length ≤ r.maxlong)
  | .dict es => decide (es.length ≤ r.maxdict) && wlE r es
  | .list xs => decide (xs.length ≤ r.maxlist) && wlL r xs
  | .tuple xs => decide (xs.length ≤ r.maxtuple) && wlL r xs
  | .set xs => decide (xs.length ≤ r.maxset) && wlL r xs
  | .frozenset xs => decide (xs.length ≤ r.maxfrozenset) && wlL r xs
  | .array xs => decide (xs.length ≤ r.maxarray)
  | .deque xs => decide (xs.length ≤ r.maxdeque) && wlL r xs
  | .mapLike es _ => decide (es.length ≤ r.maxdict) && wlE r es
  | .none => true
  | .obj _ _ _ => true

/-- Elementwise `withinLimitsB`. -/
def wlL (r : PyRepr) : List Value → Bool
  | [] => true
  | x :: rest => withinLimitsB r x && wlL r rest

/-- Entrywise `withinLimitsB` (keys and values). -/
def wlE (r : PyRepr) : List (Value × Value) → Bool
  | [] => true
  | kv :: rest => withinLimitsB r kv.1 && withinLimitsB r kv.2 && wlE r rest
end

mutual
/-- Invariant actually guaranteed on positions the traversal visits (the
root, dict values, sequence elements): containers hold at most their
category's configured count, numeric leaves have a `str` form within
`maxlong`, nonempty tuples, sets, frozensets and opaque or mapping-like
objects never survive in visited positions, and dict keys are unconstrained
(the traversal never rewrites them). -/
def visitedOk (r : PyRepr) : Value → Bool
  | .str _ => true
  | .int n => decide ((intStr n).length ≤ r.maxlong)
  | .dict es => decide (es.length ≤ r.maxdict) && voE r es
  | .list xs => decide (xs.length ≤ r.maxlist) && voL r xs
  | .tuple xs => xs.isEmpty
  | .set _ => false
  | .frozenset _ => false
  | .array xs =>
    decide (xs.length ≤ r.maxarray) && xs.all (fun n => decide ((intStr n).length ≤ r.maxlong))
  | .deque xs => decide (xs.length ≤ r.maxdeque) && voL r xs
  | .mapLike _ _ => false
  | .none => true
  | .obj _ _ _ => false

/-- Elementwise `visitedOk`. -/
def voL (r : PyRepr) : List Value → Bool
  | [] => true
  | x :: rest => visitedOk r x && voL r rest

/-- Valuewise `visitedOk` (dict keys are not constrained). -/
def voE (r : PyRepr) : List (Value × Value) → Bool
  | [] => true
  | kv :: rest => visitedOk r kv.2 && voE r rest
end

mutual
/-- Shapes on which a second application of the shortener is the identity:
`visitedOk` strengthened by requiring every string leaf in a visited
position to be within `maxstring`. -/
def stableB (r : PyRepr) : Value → Bool
  | .str s => decide (s.length ≤ r.maxstring)
  | .int n => decide ((intStr n).length ≤ r.maxlong)
  | .dict es => decide (es.length ≤ r.maxdict) && stE r es
  | .list xs => decide (xs.length ≤ r.maxlist) && stL r xs
  | .tuple xs => xs.isEmpty
  | .set _ => false
  | .frozenset _ => false
  | .array xs =>
    decide (xs.length ≤ r.maxarray) && xs.all (fun n => decide ((intStr n).length ≤ r.maxlong))
  | .deque xs => decide (xs.length ≤ r.maxdeque) && stL r xs
  | .mapLike _ _ => false
  | .none => true
  | .obj _ _ _ => false

/-- Elementwise `stableB`. -/
def stL (r : PyRepr) : List Value → Bool
  | [] => true
  | x :: rest => stableB r x && stL r rest

/-- Valuewise `stableB`. -/
def stE (r : PyRepr) : List (Value × Value) → Bool
  | [] => true
  | kv :: rest => stableB r kv.2 && stE r rest
end

mutual
/-- Every opaque object reachable in the value (anywhere, including dict
keys) has a string form, so no repr falls back to the unbounded
`<cls instance at 0x...>` descriptor. -/
def reprOkIn : Value → Bool
  | .str _ => true
  | .int _ => true
  | .dict es => roE es
  | .list xs => roL xs
  | .tuple xs => roL xs
  | .set xs => roL xs
  | .frozenset xs => roL xs
  | .array _ => true
  | .deque xs => roL xs
  | .mapLike es _ => roE es
  | .none => true
  | .obj _ sf _ => sf.isSome

/-- Elementwise `reprOkIn`. -/
def roL : List Value → Bool
  | [] => true
  | x :: rest => reprOkIn x && roL rest

/-- Entrywise `reprOkIn`. -/
def roE : List (Value × Value) → Bool
  | [] => true
  | kv :: rest => reprOkIn kv.1 && reprOkIn kv.2 && roE rest
end

/-- Upper bound for the length of every leaf repr produced by `reprlib`
(instance reprs that do not hit the fallback descriptor), also covering the
constant-size pieces of container reprs. -/
def leafB (r : PyRepr) : Nat :=
  max 17 (max 3 (max r.maxstring (max r.maxlong r.maxother)))

/-- The largest per-container element cap of the configuration. -/
def maxiterM (r : PyRepr) : Nat :=
  max r.maxtuple (max r.maxlist (max r.maxarray (max r.maxdict
    (max r.maxset (max r.maxfrozenset r.maxdeque)))))

/-- Recursive bound on the length of `repr1` output at a given level: a
function of the configuration alone. -/
def reprBound (r : PyRepr) : Nat → Nat
  | 0 => leafB r
  | l+1 => max (leafB r) (17 + (maxiterM r + 1) * (2 * reprBound r l + 4))

/-- Values whose elements form a container (the output of the sequence
strategy is never one of these when it summarizes). -/
def isContainerV : Value → Bool
  | .dict _ => true
  | .list _ => true
  | .tuple _ => true
  | .set _ => true
  | .frozenset _ => true
  | .array _ => true
  | .deque _ => true
  | .mapLike _ _ => true
  | _ => false

/-- Pairwise distinctness of a key list under Python equality (the invariant
of genuine dict key sequences). -/
def keysFresh : List Value → Bool
  | [] => true
  | k :: rest => rest.all (fun x => !(vbeq k x)) && keysFresh rest

/-- The eligibility key used by the concrete fixtures. -/
def keyK : Value := .str (pchars "k")

/-- A transform with the default configuration and eligibility set
containing exactly the key `k` (safe_repr left at its default). -/
def trK : ShortenerTransform := mkShortener true (some [keyK]) []

/-- Eligible list of ten twenty-character strings: its summary repr is far
longer than the text limit. -/
def c1input : Value := .list (List.replicate 10 (.str (List.replicate 20 'a')))

/-- A small eligible dict already within every cap: one short key bound to a
two-element list of small integers. -/
def c1winput : Value := .dict [(.str (pchars "a"), .list [.int 1, .int 2])]

/-- A forty-five digit integer: its numeric summary (capped at `maxlong`)
still exceeds the text limit, so a second pass shortens it again. -/
def c3big : Int := 10 ^ 44

/-- Eligible dict holding a one-element tuple: the traversal's item
assignment into the tuple raises `TypeError`. -/
def c2tupleInput : Value := .dict [(.str (pchars "a"), .tuple [.int 1])]

/-- Eligible dict holding an opaque object whose string conversion raises:
under `safe_repr` the conversion error propagates out of the transform. -/
def c2objInput : Value := .dict [(.str (pchars "a"), .obj (pchars "Boom") Option.none 7)]

/-- A mapping-like (non-dict) value with five entries and string form
`custom`. -/
def c8map : Value :=
  .mapLike [(.str (pchars "a"), .int 1), (.str (pchars "b"), .int 2),
            (.str (pchars "c"), .int 3), (.str (pchars "d"), .int 4),
            (.str (pchars "e"), .int 5)] (pchars "custom")

/-- Five concrete dict entries with distinct keys (mapping-strategy witness). -/
def c4entries : List (Value × Value) :=
  [(.str (pchars "a"), .int 1), (.str (pchars "b"), .int 2),
   (.str (pchars "c"), .int 3), (.str (pchars "d"), .int 4),
   (.str (pchars "e"), .int 5)]

/-- Eligible list of ten integers (sequence-strategy example input). -/
def c5list : Value := .list ((List.range 10).map .int)

/-- A `reprlib.Repr` configuration with the list cap overridden to five
(the spec's sequence-strategy example). -/
def r5 : PyRepr := { maxlist := 5 }

/-- An over-limit list of six opaque objects whose `repr` raises and whose
class name is 400 million characters long (never materialised; only its
length is used): `reprlib` falls back to the untruncated instance
descriptor, so the summary exceeds the recursive configuration bound. -/
def c5bad : Value :=
  .list (List.replicate 6 (.obj (List.replicate 400000000 'A') Option.none 0))

/-- The first-pass output of the shortener on the 45-digit integer: the
numeric summary capped at `maxlong` = 40 characters. -/
def c3once : Str := pchars "1" ++ List.replicate 17 '0' ++ fillv ++ List.replicate 19 '0'

/-- The second-pass output: the 40-character summary string, re-classified
as text, re-capped at `maxstring` = 30 characters. -/
def c3twice : Str :=
  [squoteC, '1'] ++ List.replicate 11 '0' ++ fillv ++ List.replicate 13 '0' ++ [squoteC]

/-- Postcondition of one `traverse_obj` call on the value it was handed:
dicts keep their keys and get `visitedOk` values, mutable sequences keep
their length and get `visitedOk` elements, arrays keep their length with
`maxlong`-bounded entries, only the empty tuple survives, and every other
value is returned unchanged. -/
def travPost (r : PyRepr) : Value → Value → Prop := fun d out =>
  match d with
  | .dict es => ∃ es2, out = .dict es2 ∧ es2.length = es.length ∧
      es2.map Prod.fst = es.map Prod.fst ∧ ∀ kv ∈ es2, visitedOk r kv.2 = true
  | .list xs => ∃ xs2, out = .list xs2 ∧ xs2.length = xs.length ∧
      ∀ x ∈ xs2, visitedOk r x = true
  | .deque xs => ∃ xs2, out = .deque xs2 ∧ xs2.length = xs.length ∧
      ∀ x ∈ xs2, visitedOk r x = true
  | .array xs => ∃ xs2, out = .array xs2 ∧ xs2.length = xs.length ∧
      ∀ n ∈ xs2, (intStr n).length ≤ r.maxlong
  | .tuple xs => out = .tuple [] ∧ xs = []
  | d => out = d

/-- The per-entry update of the `traverse_obj` loops (shared by the dict and
sequence loop bodies): dict values go through the mapping strategy and
recursion, sequence values through the sequence strategy and recursion, and
everything else through `_shorten`.  Definitionally equal to the branch
inlined in `dictItemsF` and `seqItemsF`. -/
def traverseStep (t : ShortenerTransform) (g : Nat) (v : Value) : Except PyErr Value :=
  if isDictV v then traverseF t g (shorten_mapping v (get_max_size t v))
  else if isSequenceType v then traverseF t g (shorten_sequence t.rpr v (get_max_size t v))
  else shortenF t g v

/-- C9: the other strategy returns `None` unchanged under every
configuration (any `safe_repr` flag and any limits), and so does the full
leaf dispatcher; null is never stringified or summarized. -/
theorem C9_other_strategy_preserves_null (t : ShortenerTransform) :
    shorten_other t Value.none = .ok Value.none ∧
    t.shorten Value.none = .ok Value.none :=
  ⟨rfl, rfl⟩

/-- C10: a falsy key (empty string, empty tuple, `None`, zero, ...) makes
the entry point return the value unchanged, before the eligibility set is
ever consulted — even when the key is a member of the set. -/
theorem C10_falsy_key_skips (t : ShortenerTransform) (o k : Value)
    (h : pyTruthy k = false) : t.default o k = .ok o := by
  simp only [ShortenerTransform.default, should_shorten, h, Bool.not_false, if_true, if_false]
  rfl

/-- Witness for C10: the empty string key is falsy yet a member of the
eligibility set, and the oversized value passes through unchanged. -/
theorem C10_falsy_key_skips_witness :
    pyTruthy (.str []) = false ∧
    key_in (.str []) (some [Value.str []]) = true ∧
    (mkShortener true (some [Value.str []]) []).default c1input (.str []) = .ok c1input :=
  ⟨rfl, rfl, C10_falsy_key_skips (mkShortener true (some [Value.str []]) []) c1input (.str []) rfl⟩

/-- C6: with no key, or with a key outside the eligibility set, the entry
point returns the value unchanged (no traversal, no shortening). -/
theorem C6_ineligible_passthrough (t : ShortenerTransform) (o : Value) :
    (t.default o Value.none = .ok o) ∧
    (∀ ks k, t.keys = some ks → (ks.any fun x => vbeq x k) = false →
      t.default o k = .ok o) := by
  constructor
  · simp only [ShortenerTransform.default, should_shorten, pyTruthy,
      Bool.not_false, if_true, if_false]
    rfl
  · intro ks k hks hmem
    by_cases htr : pyTruthy k
    · simp only [ShortenerTransform.default, should_shorten, htr, key_in, hks,
        hmem, Bool.not_true, if_false, Bool.false_eq_true]
      rfl
    · simp only [ShortenerTransform.default, should_shorten,
        Bool.eq_false_iff.mpr htr, Bool.not_false, if_true, if_false]
      rfl

/-- Witness for C6: the default-config transform with eligibility set
containing only `k` passes the oversized list through unchanged both for a
missing key and for the key `other`. -/
theorem C6_ineligible_passthrough_witness :
    (trK.default c1input Value.none = .ok c1input) ∧
    trK.keys = some [keyK] ∧
    (([keyK]).any fun x => vbeq x (.str (pchars "other"))) = false ∧
    trK.default c1input (.str (pchars "other")) = .ok c1input :=
  ⟨(C6_ineligible_passthrough trK c1input).1, rfl, rfl,
   (C6_ineligible_passthrough trK c1input).2 [keyK] (.str (pchars "other")) rfl rfl⟩

/-- Counterexample to C7 as stated: constructing with a size-override name
that corresponds to no known category does not fail — `setattr` accepts the
bogus attribute silently. -/
theorem C7_unknown_override_succeeds :
    (ShortenerTransform.init true Option.none [(pchars "maxbogus", 7)]).isOk = true ∧
    knownSizeAttrs.contains (pchars "maxbogus") = false :=
  ⟨rfl, rfl⟩

/-- C7 amended: construction never fails, for every flag, eligibility set
and override list (no statement of `__init__` can raise). -/
theorem C7_construction_never_fails (sr : Bool) (keys : Option (List Value))
    (sizes : List (Str × Nat)) :
    (ShortenerTransform.init sr keys sizes).isOk = true := rfl

set_option maxRecDepth 100000 in
/-- C2 (code bug): the transform propagates exceptions.  An eligible dict
holding a short nonempty tuple makes the traversal's item assignment raise
`TypeError`, and under the default `safe_repr` an opaque object whose string
conversion raises propagates that exception. -/
theorem C2_transform_raises :
    trK.default c2tupleInput keyK = .error (.typeError tupleAssignMsg) ∧
    trK.default c2objInput keyK = .error (.raised (pchars "Boom")) :=
  ⟨rfl, rfl⟩

set_option maxRecDepth 100000 in
/-- Counterexample to C8 as stated: a mapping-like non-dict value is
classified with the mapping limit, but the transform does not shorten it as
a mapping — it falls through to the other strategy and is replaced by a
summary string (not a mapping at all). -/
theorem C8_mapLike_stringified :
    trK.default c8map keyK = .ok (.str (squoteC :: pchars "custom" ++ [squoteC])) ∧
    get_max_size trK c8map = trK.rpr.maxdict ∧
    isContainerV (.str (squoteC :: pchars "custom" ++ [squoteC])) = false :=
  ⟨rfl, rfl, rfl⟩

/-- C8 amended: a structurally mapping-like non-dict value is classified
with the mapping size limit by `_get_max_size`, but the leaf dispatcher
sends it to the other strategy, producing a summary string (under either
`safe_repr` setting), never a key-capped mapping. -/
theorem C8_mapLike_classified_but_not_traversed (t : ShortenerTransform)
    (es : List (Value × Value)) (s : Str) :
    get_max_size t (.mapLike es s) = t.rpr.maxdict ∧
    t.shorten (.mapLike es s) = shorten_other t (.mapLike es s) ∧
    t.shorten (.mapLike es s) =
      .ok (.str (if t.safe_repr then t.rpr.repr (.str s) else t.rpr.repr (.mapLike es s))) := by
  refine ⟨rfl, rfl, ?_⟩
  by_cases h : t.safe_repr <;>
    simp [ShortenerTransform.shorten, shortenF, shorten_other, h, pyStrBuiltin,
      isDictV, isStringType, isSequenceType, isNumberType] <;> rfl

set_option maxRecDepth 100000 in
/-- Counterexample to C1 as stated: on an eligible list of ten
twenty-character strings (all limits at their defaults) the output is a
single text leaf of 149 characters, far above the text limit of 30; the
output violates the per-category limit predicate. -/
theorem C1_output_exceeds_limits :
    (trK.default c1input keyK).map (withinLimitsB trK.rpr) = .ok false ∧
    (trK.default c1input keyK).map (fun v => (strOfV v).length) = .ok 149 ∧
    trK.rpr.maxstring = 30 :=
  ⟨rfl, rfl, rfl⟩

set_option maxRecDepth 100000 in
/-- Counterexample to C3 as stated: the transform is not idempotent.  On an
eligible 45-digit integer the first pass yields a 40-character numeric
summary (capped at `maxlong`), and a second pass re-classifies it as text
and caps it again at `maxstring` = 30, producing a different value. -/
theorem C3_second_pass_shrinks_summary :
    trK.default (.int c3big) keyK = .ok (.str c3once) ∧
    trK.default (.str c3once) keyK = .ok (.str c3twice) ∧
    (c3once = c3twice → False) :=
  ⟨rfl, rfl, by decide⟩

theorem vsize_pos (v : Value) : 1 ≤ vsize v := by
  cases v <;> simp [vsize] <;> omega

theorem lsize_lt_of_mem {x : Value} {xs : List Value} (h : x ∈ xs) :
    vsize x < lsize xs := by
  induction xs with
  | nil => cases h
  | cons a as ih =>
    rcases List.mem_cons.mp h with rfl | h2
    · simp [lsize]; omega
    · have := ih h2
      simp [lsize]
      have := vsize_pos a
      omega

theorem esize_fst_lt_of_mem {kv : Value × Value} {es : List (Value × Value)}
    (h : kv ∈ es) : vsize kv.1 < esize es := by
  induction es with
  | nil => cases h
  | cons a as ih =>
    rcases List.mem_cons.mp h with rfl | h2
    · simp [esize]; omega
    · have := ih h2
      simp [esize]
      omega

theorem esize_snd_lt_of_mem {kv : Value × Value} {es : List (Value × Value)}
    (h : kv ∈ es) : vsize kv.2 < esize es := by
  induction es with
  | nil => cases h
  | cons a as ih =>
    rcases List.mem_cons.mp h with rfl | h2
    · simp [esize]; omega
    · have := ih h2
      simp [esize]
      omega

theorem lbeq_refl_of (xs : List Value) (h : ∀ x ∈ xs, vbeq x x = true) :
    lbeq xs xs = true := by
  induction xs with
  | nil => rfl
  | cons a as ih =>
    simp only [lbeq, Bool.and_eq_true]
    exact ⟨h a (by simp), ih fun x hx => h x (by simp [hx])⟩

theorem ebeq_refl_of (es : List (Value × Value))
    (h : ∀ kv ∈ es, vbeq kv.1 kv.1 = true ∧ vbeq kv.2 kv.2 = true) :
    ebeq es es = true := by
  induction es with
  | nil => rfl
  | cons a as ih =>
    simp only [ebeq, Bool.and_eq_true]
    exact ⟨⟨(h a (by simp)).1, (h a (by simp)).2⟩, ih fun kv hkv => h kv (by simp [hkv])⟩

theorem vbeq_refl (v : Value) : vbeq v v = true := by
  have main : ∀ n v, vsize v < n → vbeq v v = true := by
    intro n
    induction n with
    | zero => intro v h; omega
    | succ n ih =>
      intro v hv
      match v with
      | .str s => simp [vbeq]
      | .int m => simp [vbeq]
      | .none => rfl
      | .obj c sf i => simp [vbeq]
      | .array xs => simp [vbeq]
      | .dict es =>
        show ebeq es es = true
        refine ebeq_refl_of es fun kv hkv => ⟨?_, ?_⟩
        · refine ih kv.1 ?_
          have h1 := esize_fst_lt_of_mem hkv
          simp [vsize] at hv
          omega
        · refine ih kv.2 ?_
          have h1 := esize_snd_lt_of_mem hkv
          simp [vsize] at hv
          omega
      | .mapLike es s =>
        have h1 : ebeq es es = true := by
          refine ebeq_refl_of es fun kv hkv => ⟨?_, ?_⟩
          · refine ih kv.1 ?_
            have := esize_fst_lt_of_mem hkv
            simp [vsize] at hv
            omega
          · refine ih kv.2 ?_
            have := esize_snd_lt_of_mem hkv
            simp [vsize] at hv
            omega
        simp [vbeq, h1]
      | .list xs =>
        show lbeq xs xs = true
        refine lbeq_refl_of xs fun x hx => ih x ?_
        have := lsize_lt_of_mem hx
        simp [vsize] at hv
        omega
      | .tuple xs =>
        show lbeq xs xs = true
        refine lbeq_refl_of xs fun x hx => ih x ?_
        have := lsize_lt_of_mem hx
        simp [vsize] at hv
        omega
      | .set xs =>
        show lbeq xs xs = true
        refine lbeq_refl_of xs fun x hx => ih x ?_
        have := lsize_lt_of_mem hx
        simp [vsize] at hv
        omega
      | .frozenset xs =>
        show lbeq xs xs = true
        refine lbeq_refl_of xs fun x hx => ih x ?_
        have := lsize_lt_of_mem hx
        simp [vsize] at hv
        omega
      | .deque xs =>
        show lbeq xs xs = true
        refine lbeq_refl_of xs fun x hx => ih x ?_
        have := lsize_lt_of_mem hx
        simp [vsize] at hv
        omega
  exact main (vsize v + 1) v (by omega)

theorem keysFresh_cons {k : Value} {ks : List Value}
    (h : keysFresh (k :: ks) = true) :
    (∀ x ∈ ks, vbeq k x = false) ∧ keysFresh ks = true := by
  simp only [keysFresh, Bool.and_eq_true, List.all_eq_true] at h
  refine ⟨fun x hx => ?_, h.2⟩
  have := h.1 x hx
  simpa using this

theorem dictGet_cons_of_ne {kv : Value × Value} {es : List (Value × Value)}
    {k : Value} (h : vbeq kv.1 k = false) :
    dictGet (kv :: es) k = dictGet es k := by
  simp [dictGet, List.find?, h]

/-- Under distinct keys, the dict comprehension of `_shorten_mapping`
(`{k: obj[k] for k in islice(obj.keys(), m)}`) builds exactly the first `m`
entries of the dict in iteration order. -/
theorem take_map_dictGet (es : List (Value × Value)) (m : Nat)
    (h : keysFresh (es.map Prod.fst) = true) :
    ((es.map Prod.fst).take m).map (fun k => (k, dictGet es k)) = es.take m := by
  induction es generalizing m with
  | nil => simp
  | cons kv rest ih =>
    cases m with
    | zero => simp
    | succ m =>
      have hc := @keysFresh_cons kv.1 (rest.map Prod.fst)
        (by simpa using h)
      simp only [List.map_cons, List.take_succ_cons]
      have hhead : (kv.1, dictGet (kv :: rest) kv.1) = kv := by
        have : vbeq kv.1 kv.1 = true := vbeq_refl kv.1
        simp [dictGet, List.find?, this]
      rw [hhead]
      have htail :
          ((rest.map Prod.fst).take m).map (fun k => (k, dictGet (kv :: rest) k)) =
          ((rest.map Prod.fst).take m).map (fun k => (k, dictGet rest k)) := by
        refine List.map_congr_left fun k hk => ?_
        have hkmem : k ∈ rest.map Prod.fst := List.take_subset _ _ hk
        rw [dictGet_cons_of_ne (hc.1 k hkmem)]
      rw [htail, ih m hc.2]

/-- C4: the mapping strategy returns a mapping unchanged when its key count
is within the limit; otherwise it returns a new mapping holding exactly the
first `limit` keys in iteration order, each bound to its original
(unshortened) value. -/
theorem C4_mapping_strategy (es : List (Value × Value)) (m : Nat)
    (h : keysFresh (es.map Prod.fst) = true) :
    (es.length ≤ m → shorten_mapping (.dict es) m = .dict es) ∧
    (m < es.length →
      shorten_mapping (.dict es) m = .dict (es.take m) ∧
      (es.take m).length = m ∧
      (es.take m).map Prod.fst = (es.map Prod.fst).take m ∧
      ∀ kv ∈ es.take m, kv ∈ es) := by
  constructor
  · intro hle
    simp [shorten_mapping, hle]
  · intro hlt
    refine ⟨?_, ?_, ?_, ?_⟩
    · simp only [shorten_mapping, if_neg (by omega : ¬ es.length ≤ m)]
      rw [take_map_dictGet es m h]
    · rw [List.length_take]; omega
    · exact List.map_take ..
    · exact fun kv hkv => List.take_subset _ _ hkv

/-- Witness for C4: five distinct keys, limit three — the strategy keeps
exactly the first three entries with their original values. -/
theorem C4_mapping_strategy_witness :
    keysFresh (c4entries.map Prod.fst) = true ∧
    (3 < c4entries.length ∧
      shorten_mapping (.dict c4entries) 3 = .dict (c4entries.take 3)) ∧
    (c4entries.length ≤ 9 → shorten_mapping (.dict c4entries) 9 = .dict c4entries) :=
  ⟨rfl,
   ⟨by decide, ((C4_mapping_strategy c4entries 3 rfl).2 (by decide)).1⟩,
   (C4_mapping_strategy c4entries 9 rfl).1⟩

theorem sliceFrom_tail_len (s : Str) (j : Nat) :
    (sliceFrom s ((s.length : Int) - (j : Int))).length ≤ j := by
  simp only [sliceFrom]
  split <;> simp only [List.length_drop] <;> omega

theorem truncOther_len (r : PyRepr) (s : Str) :
    (truncOther r s).length ≤ max r.maxother 3 := by
  simp only [truncOther]
  split
  · omega
  · have h1 := sliceFrom_tail_len s (r.maxother - 3 - (r.maxother - 3) / 2)
    simp only [List.length_append, List.length_take]
    have h2 : (fillv).length = 3 := rfl
    omega

theorem repr_str_len (r : PyRepr) (x : Str) :
    (repr_str r x).length ≤ max r.maxstring 3 := by
  simp only [repr_str]
  split
  · omega
  · set s2 := pyReprOfStr (x.take ((r.maxstring - 3) / 2) ++
      sliceFrom x ((x.length : Int) - ((r.maxstring - 3 - (r.maxstring - 3) / 2) : Nat))) with hs2
    have h1 := sliceFrom_tail_len s2 (r.maxstring - 3 - (r.maxstring - 3) / 2)
    simp only [List.length_append, List.length_take]
    have h2 : (fillv).length = 3 := rfl
    omega

theorem repr_int_len (r : PyRepr) (n : Int) :
    (repr_int r n).length ≤ max r.maxlong 3 := by
  simp only [repr_int]
  split
  · omega
  · have h1 := sliceFrom_tail_len (intStr n) (r.maxlong - 3 - (r.maxlong - 3) / 2)
    simp only [List.length_append, List.length_take]
    have h2 : (fillv).length = 3 := rfl
    omega

theorem le_leafB_17 (r : PyRepr) : 17 ≤ leafB r := le_max_left _ _

theorem maxstring_le_leafB (r : PyRepr) : max r.maxstring 3 ≤ leafB r := by
  simp only [leafB]
  omega

theorem maxlong_le_leafB (r : PyRepr) : max r.maxlong 3 ≤ leafB r := by
  simp only [leafB]
  omega

theorem maxother_le_leafB (r : PyRepr) : max r.maxother 3 ≤ leafB r := by
  simp only [leafB]
  omega

theorem leafB_le_reprBound (r : PyRepr) (level : Nat) : leafB r ≤ reprBound r level := by
  cases level with
  | zero => exact le_rfl
  | succ l => exact le_max_left _ _

theorem repr_instance_len (r : PyRepr) (v : Value) (h : reprOkIn v = true) :
    (repr_instance r v).length ≤ leafB r := by
  match v with
  | .str s => exact Nat.zero_le _
  | .int n => exact Nat.zero_le _
  | .dict es => exact Nat.zero_le _
  | .list xs => exact Nat.zero_le _
  | .tuple xs => exact Nat.zero_le _
  | .set xs => exact Nat.zero_le _
  | .frozenset xs => exact Nat.zero_le _
  | .array xs => exact Nat.zero_le _
  | .deque xs => exact Nat.zero_le _
  | .none => exact le_trans (truncOther_len r _) (maxother_le_leafB r)
  | .mapLike es s => exact le_trans (truncOther_len r _) (maxother_le_leafB r)
  | .obj c sf i =>
    match sf with
    | some s => exact le_trans (truncOther_len r _) (maxother_le_leafB r)
    | Option.none => simp [reprOkIn] at h

theorem pyJoin_len (sep : Str) (B : Nat) :
    ∀ ps : List Str, (∀ p ∈ ps, p.length ≤ B) →
      (pyJoin sep ps).length ≤ ps.length * (B + sep.length)
  | [], _ => by simp [pyJoin]
  | [p], h => by
    have := h p (by simp)
    simp only [pyJoin, List.length_singleton, Nat.one_mul]
    omega
  | p :: q :: rest, h => by
    have ih := pyJoin_len sep B (q :: rest) (fun x hx => h x (List.mem_cons_of_mem _ hx))
    have hp := h p (by simp)
    simp only [pyJoin, List.length_append, List.length_cons]
    have e : (rest.length + 1 + 1) * (B + sep.length)
        = (rest.length + 1) * (B + sep.length) + (B + sep.length) := by ring
    simp only [List.length_cons] at ih
    omega

theorem seqPiecesF_count (r : PyRepr) :
    ∀ fuel xs maxiter level, (seqPiecesF r fuel xs maxiter level).length ≤ maxiter := by
  intro fuel
  induction fuel with
  | zero => intro xs maxiter level; simp [seqPiecesF]
  | succ fuel ih =>
    intro xs maxiter level
    match xs, maxiter with
    | [], _ => simp [seqPiecesF]
    | _ :: _, 0 => simp [seqPiecesF]
    | x :: rest, m + 1 =>
      have := ih rest m level
      simp only [seqPiecesF, List.length_cons]
      omega

theorem dictPiecesF_count (r : PyRepr) :
    ∀ fuel es keys level, (dictPiecesF r fuel es keys level).length ≤ keys.length := by
  intro fuel
  induction fuel with
  | zero => intro es keys level; simp [dictPiecesF]
  | succ fuel ih =>
    intro es keys level
    match keys with
    | [] => simp [dictPiecesF]
    | k :: ks =>
      have := ih es ks level
      simp only [dictPiecesF, List.length_cons]
      omega

theorem roL_forall {xs : List Value} (h : roL xs = true) :
    ∀ x ∈ xs, reprOkIn x = true := by
  induction xs with
  | nil => intro x hx; cases hx
  | cons a as ih =>
    simp only [roL, Bool.and_eq_true] at h
    intro x hx
    rcases List.mem_cons.mp hx with rfl | hx2
    · exact h.1
    · exact ih h.2 x hx2

theorem roE_forall {es : List (Value × Value)} (h : roE es = true) :
    ∀ kv ∈ es, reprOkIn kv.1 = true ∧ reprOkIn kv.2 = true := by
  induction es with
  | nil => intro kv hkv; cases hkv
  | cons a as ih =>
    simp only [roE, Bool.and_eq_true] at h
    intro kv hkv
    rcases List.mem_cons.mp hkv with rfl | hkv2
    · exact ⟨h.1.1, h.1.2⟩
    · exact ih h.2 kv hkv2

theorem possiblySorted_mem {x : Value} {xs : List Value}
    (h : x ∈ possiblySorted xs) : x ∈ xs := by
  simp only [possiblySorted] at h
  split at h
  · exact (List.mem_insertionSort _).mp h
  · split at h
    · exact (List.mem_insertionSort _).mp h
    · exact h

theorem dictGet_reprOk {es : List (Value × Value)} {k : Value}
    (h : ∀ kv ∈ es, reprOkIn kv.2 = true) : reprOkIn (dictGet es k) = true := by
  simp only [dictGet]
  split
  · next kv heq => exact h kv (List.mem_of_find?_eq_some heq)
  · rfl

theorem maxlist_le_maxiterM (r : PyRepr) : r.maxlist ≤ maxiterM r := by
  simp only [maxiterM]; omega

theorem maxtuple_le_maxiterM (r : PyRepr) : r.maxtuple ≤ maxiterM r := by
  simp only [maxiterM]; omega

theorem maxset_le_maxiterM (r : PyRepr) : r.maxset ≤ maxiterM r := by
  simp only [maxiterM]; omega

theorem maxfrozenset_le_maxiterM (r : PyRepr) : r.maxfrozenset ≤ maxiterM r := by
  simp only [maxiterM]; omega

theorem maxdeque_le_maxiterM (r : PyRepr) : r.maxdeque ≤ maxiterM r := by
  simp only [maxiterM]; omega

theorem maxarray_le_maxiterM (r : PyRepr) : r.maxarray ≤ maxiterM r := by
  simp only [maxiterM]; omega

theorem maxdict_le_maxiterM (r : PyRepr) : r.maxdict ≤ maxiterM r := by
  simp only [maxiterM]; omega

theorem reprBound_ge_17 (r : PyRepr) (level : Nat) : 17 ≤ reprBound r level :=
  le_trans (le_leafB_17 r) (leafB_le_reprBound r level)


theorem seqPiecesF_nil (r : PyRepr) (g maxiter level : Nat) :
    seqPiecesF r g ([] : List Value) maxiter level = [] := by
  match g with
  | 0 => rfl
  | g + 1 => rfl

/-- Length bound for one `_repr_iterable` call, given a bound on the pieces
its own fuel can produce at the decremented level. -/
theorem reprIterF_bound (r : PyRepr) (fuel : Nat) (xs : List Value) (lft rgt : Str)
    (maxiter : Nat) (trail : Bool) (level : Nat)
    (Hp : ∀ g, g < fuel →
      ∀ p ∈ seqPiecesF r g xs maxiter (level - 1), p.length ≤ reprBound r (level - 1))
    (hl : lft.length ≤ 12) (hr : rgt.length ≤ 2) (hm : maxiter ≤ maxiterM r) :
    (reprIterF r fuel xs lft rgt maxiter trail level).length ≤ reprBound r level := by
  match fuel with
  | 0 => exact Nat.zero_le _
  | g + 1 =>
    have hHp := Hp g (Nat.lt_succ_self g)
    have h3 : (fillv).length = 3 := rfl
    have hsep : (pchars ", ").length = 2 := rfl
    have h17 := reprBound_ge_17 r level
    simp only [reprIterF]
    split
    · simp only [List.length_append]
      omega
    · next hcond =>
      rcases Nat.eq_zero_or_pos level with hl0 | hlpos
      · -- level is zero, so the branch condition forces an empty list
        subst hl0
        have hxs : xs = [] := by
          by_contra hne
          have hne' : ¬ (xs.length = 0) := fun h0 => hne (List.length_eq_zero.mp h0)
          exact hcond (by simp [hne'])
        subst hxs
        rw [seqPiecesF_nil]
        have hno : ¬ (maxiter < ([] : List Value).length) := by
          simp only [List.length_nil]
          omega
        rw [if_neg hno]
        have hj : pyJoin (pchars ", ") ([] : List Str) = [] := rfl
        rw [hj]
        simp only [List.length_append, List.length_nil]
        split
        · simp only [List.length_cons]; omega
        · omega
      · obtain ⟨l, rfl⟩ : ∃ l, level = l + 1 := ⟨level - 1, by omega⟩
        have hB17 : 17 ≤ reprBound r l := reprBound_ge_17 r l
        set B := reprBound r l with hB
        set ps0 := seqPiecesF r g xs maxiter (l + 1 - 1) with hps0
        set ps := (if maxiter < xs.length then ps0 ++ [fillv] else ps0) with hps
        have hall : ∀ p ∈ ps, p.length ≤ B := by
          intro p hp
          rw [hps] at hp
          split at hp
          · rcases List.mem_append.mp hp with h1 | h2
            · exact hHp p h1
            · have : p = fillv := by simpa using h2
              subst this
              omega
          · exact hHp p hp
        have hcnt0 := seqPiecesF_count r g xs maxiter (l + 1 - 1)
        rw [← hps0] at hcnt0
        have hcount : ps.length ≤ maxiterM r + 1 := by
          rw [hps]
          split
          · simp only [List.length_append, List.length_singleton]
            omega
          · omega
        have hjoin := pyJoin_len (pchars ", ") B ps hall
        rw [hsep] at hjoin
        have hjoin2 : (pyJoin (pchars ", ") ps).length ≤ (maxiterM r + 1) * (B + 2) :=
          le_trans hjoin (Nat.mul_le_mul_right _ hcount)
        have hmono : (maxiterM r + 1) * (B + 2) ≤ (maxiterM r + 1) * (2 * B + 4) :=
          Nat.mul_le_mul_left _ (by omega)
        have hfinal : 17 + (maxiterM r + 1) * (2 * B + 4) ≤ reprBound r (l + 1) :=
          le_max_right _ _
        simp only [List.length_append]
        split
        · simp only [List.length_cons]; omega
        · omega

theorem repr1F_succ_str (r : PyRepr) (g : Nat) (s : Str) (level : Nat) :
    repr1F r (g + 1) (.str s) level = repr_str r s := rfl

theorem repr1F_succ_int (r : PyRepr) (g : Nat) (n : Int) (level : Nat) :
    repr1F r (g + 1) (.int n) level = repr_int r n := rfl

theorem repr1F_succ_list (r : PyRepr) (g : Nat) (xs : List Value) (level : Nat) :
    repr1F r (g + 1) (.list xs) level =
      reprIterF r g xs (pchars "[") (pchars "]") r.maxlist false level := rfl

theorem repr1F_succ_tuple (r : PyRepr) (g : Nat) (xs : List Value) (level : Nat) :
    repr1F r (g + 1) (.tuple xs) level =
      reprIterF r g xs (pchars "(") (pchars ")") r.maxtuple true level := rfl

theorem repr1F_succ_deque (r : PyRepr) (g : Nat) (xs : List Value) (level : Nat) :
    repr1F r (g + 1) (.deque xs) level =
      reprIterF r g xs (pchars "deque([") (pchars "])") r.maxdeque false level := rfl

theorem repr1F_succ_set (r : PyRepr) (g : Nat) (xs : List Value) (level : Nat) :
    repr1F r (g + 1) (.set xs) level =
      if xs.length = 0 then pchars "set()"
      else reprIterF r g (possiblySorted xs) [obraceC] [cbraceC] r.maxset false level := rfl

theorem repr1F_succ_frozenset (r : PyRepr) (g : Nat) (xs : List Value) (level : Nat) :
    repr1F r (g + 1) (.frozenset xs) level =
      if xs.length = 0 then pchars "frozenset()"
      else reprIterF r g (possiblySorted xs)
        (pchars "frozenset(" ++ [obraceC]) (cbraceC :: pchars ")") r.maxfrozenset false level := rfl

theorem repr1F_succ_dict (r : PyRepr) (g : Nat) (es : List (Value × Value)) (level : Nat) :
    repr1F r (g + 1) (.dict es) level =
      if es.length = 0 then [obraceC, cbraceC]
      else if level = 0 then obraceC :: fillv ++ [cbraceC]
      else
        obraceC :: pyJoin (pchars ", ")
          (if r.maxdict < es.length
            then dictPiecesF r g es ((possiblySorted (es.map Prod.fst)).take r.maxdict)
              (level - 1) ++ [fillv]
            else dictPiecesF r g es ((possiblySorted (es.map Prod.fst)).take r.maxdict)
              (level - 1))
          ++ [cbraceC] := rfl

theorem repr1F_succ_array (r : PyRepr) (g : Nat) (xs : List Int) (level : Nat) :
    repr1F r (g + 1) (.array xs) level =
      if xs.length = 0 then pchars "array(" ++ [squoteC, 'l', squoteC] ++ pchars ")"
      else if level = 0 then
        (pchars "array(" ++ [squoteC, 'l', squoteC] ++ pchars ", [") ++ fillv ++ pchars "])"
      else
        (pchars "array(" ++ [squoteC, 'l', squoteC] ++ pchars ", [") ++
          pyJoin (pchars ", ")
            (if r.maxarray < xs.length
              then (xs.take r.maxarray).map (repr_int r) ++ [fillv]
              else (xs.take r.maxarray).map (repr_int r))
          ++ pchars "])" := rfl

theorem repr1F_succ_none (r : PyRepr) (g : Nat) (level : Nat) :
    repr1F r (g + 1) Value.none level = repr_instance r Value.none := rfl

theorem repr1F_succ_obj (r : PyRepr) (g : Nat) (c : Str) (sf : Option Str) (i : Nat)
    (level : Nat) :
    repr1F r (g + 1) (.obj c sf i) level = repr_instance r (.obj c sf i) := rfl

theorem repr1F_succ_mapLike (r : PyRepr) (g : Nat) (es : List (Value × Value)) (s : Str)
    (level : Nat) :
    repr1F r (g + 1) (.mapLike es s) level = repr_instance r (.mapLike es s) := rfl

theorem join_capped_len (B M : Nat) (ps : List Str)
    (hall : ∀ p ∈ ps, p.length ≤ B) (hcnt : ps.length ≤ M + 1) :
    (pyJoin (pchars ", ") ps).length ≤ (M + 1) * (B + 2) := by
  have h := pyJoin_len (pchars ", ") B ps hall
  have hsep : (pchars ", ").length = 2 := rfl
  rw [hsep] at h
  exact le_trans h (Nat.mul_le_mul_right _ hcnt)

/-- Master length bound for the `reprlib` recursion: for every fuel, the
output of `repr1` is bounded by `reprBound` at the current level, sequence
pieces are bounded at their level, and dict pieces by twice the level bound
plus the separator, provided every reachable opaque object has a string
form. -/
theorem repr1F_bound_all (r : PyRepr) : ∀ fuel : Nat,
    (∀ v level, reprOkIn v = true → (repr1F r fuel v level).length ≤ reprBound r level) ∧
    (∀ xs maxiter level, (∀ x ∈ xs, reprOkIn x = true) →
      ∀ p ∈ seqPiecesF r fuel xs maxiter level, p.length ≤ reprBound r level) ∧
    (∀ es keys level, (∀ k ∈ keys, reprOkIn k = true) →
      (∀ kv ∈ es, reprOkIn kv.2 = true) →
      ∀ p ∈ dictPiecesF r fuel es keys level, p.length ≤ 2 * reprBound r level + 2) := by
  intro fuel
  induction fuel using Nat.strong_induction_on with
  | _ fuel ih =>
    cases fuel with
    | zero =>
      refine ⟨fun v level _ => Nat.zero_le _, fun xs maxiter level _ p hp => ?_,
        fun es keys level _ _ p hp => ?_⟩
      · rw [show seqPiecesF r 0 xs maxiter level = [] from rfl] at hp
        cases hp
      · rw [show dictPiecesF r 0 es keys level = [] from rfl] at hp
        cases hp
    | succ g =>
      have ihg := ih g (Nat.lt_succ_self g)
      refine ⟨?_, ?_, ?_⟩
      · intro v level hro
        have hIter : ∀ (xs : List Value) (lft rgt : Str) (maxiter : Nat) (trail : Bool),
            (∀ x ∈ xs, reprOkIn x = true) → lft.length ≤ 12 → rgt.length ≤ 2 →
            maxiter ≤ maxiterM r →
            (reprIterF r g xs lft rgt maxiter trail level).length ≤ reprBound r level := by
          intro xs lft rgt maxiter trail hxs hlft hrgt hmax
          refine reprIterF_bound r g xs lft rgt maxiter trail level ?_ hlft hrgt hmax
          intro g2 hg2 p hp
          exact (ih g2 (Nat.lt_trans hg2 (Nat.lt_succ_self g))).2.1 xs maxiter (level - 1) hxs p hp
        cases v with
        | str s =>
          rw [repr1F_succ_str]
          exact le_trans (repr_str_len r s)
            (le_trans (maxstring_le_leafB r) (leafB_le_reprBound r level))
        | int n =>
          rw [repr1F_succ_int]
          exact le_trans (repr_int_len r n)
            (le_trans (maxlong_le_leafB r) (leafB_le_reprBound r level))
        | none =>
          rw [repr1F_succ_none]
          exact le_trans (repr_instance_len r _ hro) (leafB_le_reprBound r level)
        | obj c sf i2 =>
          rw [repr1F_succ_obj]
          exact le_trans (repr_instance_len r _ hro) (leafB_le_reprBound r level)
        | mapLike es s =>
          rw [repr1F_succ_mapLike]
          exact le_trans (repr_instance_len r _ hro) (leafB_le_reprBound r level)
        | list xs =>
          rw [repr1F_succ_list]
          exact hIter xs _ _ _ _ (roL_forall hro) (by decide) (by decide) (maxlist_le_maxiterM r)
        | tuple xs =>
          rw [repr1F_succ_tuple]
          exact hIter xs _ _ _ _ (roL_forall hro) (by decide) (by decide) (maxtuple_le_maxiterM r)
        | deque xs =>
          rw [repr1F_succ_deque]
          exact hIter xs _ _ _ _ (roL_forall hro) (by decide) (by decide) (maxdeque_le_maxiterM r)
        | set xs =>
          rw [repr1F_succ_set]
          split
          · have h5 : (pchars "set()").length = 5 := rfl
            have := reprBound_ge_17 r level
            omega
          · refine hIter (possiblySorted xs) _ _ _ _ ?_ (by decide) (by decide)
              (maxset_le_maxiterM r)
            intro x hx
            exact roL_forall hro x (possiblySorted_mem hx)
        | frozenset xs =>
          rw [repr1F_succ_frozenset]
          split
          · have h11 : (pchars "frozenset()").length = 11 := rfl
            have := reprBound_ge_17 r level
            omega
          · refine hIter (possiblySorted xs) _ _ _ _ ?_ (by decide) (by decide)
              (maxfrozenset_le_maxiterM r)
            intro x hx
            exact roL_forall hro x (possiblySorted_mem hx)
        | array xs =>
          rw [repr1F_succ_array]
          split
          · have h10 : (pchars "array(" ++ [squoteC, 'l', squoteC] ++ pchars ")").length = 10 := rfl
            have := reprBound_ge_17 r level
            omega
          · split
            · have h17 : ((pchars "array(" ++ [squoteC, 'l', squoteC] ++ pchars ", [")
                  ++ fillv ++ pchars "])").length = 17 := rfl
              have := reprBound_ge_17 r level
              omega
            · next hne hl0 =>
              obtain ⟨l, rfl⟩ : ∃ l, level = l + 1 := ⟨level - 1, by omega⟩
              have hB17 := reprBound_ge_17 r l
              set ps := (if r.maxarray < xs.length
                then (xs.take r.maxarray).map (repr_int r) ++ [fillv]
                else (xs.take r.maxarray).map (repr_int r)) with hps
              have hall : ∀ p ∈ ps, p.length ≤ reprBound r l := by
                intro p hp
                have hmem : p = fillv ∨ p ∈ (xs.take r.maxarray).map (repr_int r) := by
                  rw [hps] at hp
                  split at hp
                  · rcases List.mem_append.mp hp with h1 | h2
                    · exact Or.inr h1
                    · exact Or.inl (by simpa using h2)
                  · exact Or.inr hp
                rcases hmem with rfl | hmem
                · have h3 : (fillv).length = 3 := rfl
                  omega
                · obtain ⟨n, _, rfl⟩ := List.mem_map.mp hmem
                  exact le_trans (repr_int_len r n)
                    (le_trans (maxlong_le_leafB r) (leafB_le_reprBound r l))
              have hcnt : ps.length ≤ maxiterM r + 1 := by
                have hmm := maxarray_le_maxiterM r
                have hlen : ((xs.take r.maxarray).map (repr_int r)).length ≤ r.maxarray := by
                  rw [List.length_map, List.length_take]
                  exact Nat.min_le_left _ _
                rw [hps]
                split
                · rw [List.length_append, List.length_singleton]
                  omega
                · omega
              have hjoin := join_capped_len (reprBound r l) (maxiterM r) ps hall hcnt
              have hmono : (maxiterM r + 1) * (reprBound r l + 2)
                  ≤ (maxiterM r + 1) * (2 * reprBound r l + 4) :=
                Nat.mul_le_mul_left _ (by omega)
              have hfinal : 17 + (maxiterM r + 1) * (2 * reprBound r l + 4)
                  ≤ reprBound r (l + 1) := le_max_right _ _
              have ja : (pchars "array(").length = 6 := rfl
              have jb : ([squoteC, 'l', squoteC] : Str).length = 3 := rfl
              have jc : (pchars ", [").length = 3 := rfl
              have jd : (pchars "])").length = 2 := rfl
              simp only [List.length_append]
              omega
        | dict es =>
          rw [repr1F_succ_dict]
          split
          · have h2 : ([obraceC, cbraceC] : Str).length = 2 := rfl
            have := reprBound_ge_17 r level
            omega
          · split
            · have h5 : (obraceC :: fillv ++ [cbraceC]).length = 5 := rfl
              have := reprBound_ge_17 r level
              omega
            · next hne hl0 =>
              obtain ⟨l, rfl⟩ : ∃ l, level = l + 1 := ⟨level - 1, by omega⟩
              have hB17 := reprBound_ge_17 r l
              have hroE := roE_forall (show roE es = true from hro)
              have hk : ∀ k ∈ (possiblySorted (es.map Prod.fst)).take r.maxdict,
                  reprOkIn k = true := by
                intro k hk
                have h1 : k ∈ possiblySorted (es.map Prod.fst) := List.take_subset _ _ hk
                have h2 : k ∈ es.map Prod.fst := possiblySorted_mem h1
                obtain ⟨kv, hkv, rfl⟩ := List.mem_map.mp h2
                exact (hroE kv hkv).1
              have hv : ∀ kv ∈ es, reprOkIn kv.2 = true := fun kv hkv => (hroE kv hkv).2
              have hP3 := ihg.2.2 es ((possiblySorted (es.map Prod.fst)).take r.maxdict)
                (l + 1 - 1) hk hv
              set ps := (if r.maxdict < es.length
                then dictPiecesF r g es ((possiblySorted (es.map Prod.fst)).take r.maxdict)
                  (l + 1 - 1) ++ [fillv]
                else dictPiecesF r g es ((possiblySorted (es.map Prod.fst)).take r.maxdict)
                  (l + 1 - 1)) with hps
              have hall : ∀ p ∈ ps, p.length ≤ 2 * reprBound r l + 2 := by
                intro p hp
                have hnorm : p ∈ dictPiecesF r g es
                    ((possiblySorted (es.map Prod.fst)).take r.maxdict) (l + 1 - 1)
                    ∨ p = fillv := by
                  rw [hps] at hp
                  split at hp
                  · rcases List.mem_append.mp hp with h1 | h2
                    · exact Or.inl h1
                    · exact Or.inr (by simpa using h2)
                  · exact Or.inl hp
                rcases hnorm with hmem | rfl
                · exact hP3 p hmem
                · have h3 : (fillv).length = 3 := rfl
                  omega
              have hcnt : ps.length ≤ maxiterM r + 1 := by
                have hc := dictPiecesF_count r g es
                  ((possiblySorted (es.map Prod.fst)).take r.maxdict) (l + 1 - 1)
                have hkl : ((possiblySorted (es.map Prod.fst)).take r.maxdict).length
                    ≤ r.maxdict := by
                  rw [List.length_take]
                  exact Nat.min_le_left _ _
                have hmm := maxdict_le_maxiterM r
                rw [hps]
                split
                · rw [List.length_append, List.length_singleton]
                  omega
                · omega
              have hjoin := join_capped_len (2 * reprBound r l + 2) (maxiterM r) ps hall hcnt
              have heq : (maxiterM r + 1) * (2 * reprBound r l + 2 + 2)
                  = (maxiterM r + 1) * (2 * reprBound r l + 4) := by ring
              rw [heq] at hjoin
              have hfinal : 17 + (maxiterM r + 1) * (2 * reprBound r l + 4)
                  ≤ reprBound r (l + 1) := le_max_right _ _
              simp only [List.length_cons, List.length_append, List.length_singleton,
                List.length_nil]
              omega
      · intro xs maxiter level hro p hp
        match xs, maxiter with
        | [], mi =>
          rw [seqPiecesF_nil] at hp
          cases hp
        | x :: rest, 0 =>
          rw [show seqPiecesF r (g + 1) (x :: rest) 0 level = [] from rfl] at hp
          cases hp
        | x :: rest, mi + 1 =>
          rw [show seqPiecesF r (g + 1) (x :: rest) (mi + 1) level
              = repr1F r g x level :: seqPiecesF r g rest mi level from rfl] at hp
          rcases List.mem_cons.mp hp with rfl | h2
          · exact ihg.1 x level (hro x (by simp))
          · exact ihg.2.1 rest mi level (fun y hy => hro y (by simp [hy])) p h2
      · intro es keys level hk hv p hp
        match keys with
        | [] =>
          rw [show dictPiecesF r (g + 1) es [] level = [] from rfl] at hp
          cases hp
        | k :: ks =>
          rw [show dictPiecesF r (g + 1) es (k :: ks) level
              = (repr1F r g k level ++ pchars ": " ++ repr1F r g (dictGet es k) level)
                :: dictPiecesF r g es ks level from rfl] at hp
          rcases List.mem_cons.mp hp with rfl | h2
          · have h1 := ihg.1 k level (hk k (by simp))
            have h2v := ihg.1 (dictGet es k) level (dictGet_reprOk hv)
            have hsep : (pchars ": ").length = 2 := rfl
            simp only [List.length_append]
            omega
          · exact ihg.2.2 es ks level (fun y hy => hk y (by simp [hy])) hv p h2

/-- C5: the sequence strategy returns an ordered container or text value
unchanged when its element/character count is within the limit; otherwise
it returns a single summary string — never a truncated container — whose
own length is bounded by a function of the configuration alone (for values
whose opaque objects all have string forms, so that no repr falls back to
the unbounded instance descriptor). -/
theorem C5_sequence_strategy (r : PyRepr) (v : Value) (m : Nat)
    (h : isSequenceType v = true ∨ isStringType v = true) :
    (pyLen v ≤ m → shorten_sequence r v m = v) ∧
    (m < pyLen v →
      shorten_sequence r v m = .str (r.repr v) ∧
      isContainerV (.str (r.repr v)) = false ∧
      (reprOkIn v = true → (r.repr v).length ≤ reprBound r r.maxlevel)) := by
  refine ⟨fun hle => ?_, fun hlt => ⟨?_, rfl, fun hro => ?_⟩⟩
  · simp [shorten_sequence, hle]
  · simp [shorten_sequence, Nat.not_le.mpr hlt]
  · exact (repr1F_bound_all r (4 * (vsize v + 2))).1 v r.maxlevel hro

/-- Witness for C5, instantiating the spec's example: an eligible list of
ten integers under a list limit of five becomes the single summary string
`[0, 1, 2, 3, 4, ...]`, not a five-element list. -/
theorem C5_sequence_strategy_witness :
    isSequenceType c5list = true ∧ 5 < pyLen c5list ∧
    shorten_sequence r5 c5list 5 = .str (r5.repr c5list) ∧
    r5.repr c5list = pchars "[0, 1, 2, 3, 4, ...]" ∧
    reprOkIn c5list = true ∧ (r5.repr c5list).length ≤ reprBound r5 r5.maxlevel :=
  ⟨rfl, by decide,
   ((C5_sequence_strategy r5 c5list 5 (Or.inl rfl)).2 (by decide)).1,
   rfl, rfl,
   ((C5_sequence_strategy r5 c5list 5 (Or.inl rfl)).2 (by decide)).2.2 rfl⟩

@[simp]
theorem pyBindOk {α β : Type} (a : α) (k : α → Except PyErr β) :
    (Except.ok a >>= k) = k a := rfl

@[simp]
theorem pyBindError {α β : Type} (e : PyErr) (k : α → Except PyErr β) :
    ((Except.error e : Except PyErr α) >>= k) = .error e := rfl

@[simp]
theorem pyMapOk {α β : Type} (f : α → β) (a : α) :
    (f <$> (Except.ok a : Except PyErr α)) = .ok (f a) := rfl

@[simp]
theorem pyMapError {α β : Type} (f : α → β) (e : PyErr) :
    (f <$> (Except.error e : Except PyErr α)) = .error e := rfl

@[simp]
theorem pyPureOk {α : Type} (a : α) : (pure a : Except PyErr α) = .ok a := rfl

theorem voL_all (r : PyRepr) (xs : List Value) :
    voL r xs = true ↔ ∀ x ∈ xs, visitedOk r x = true := by
  induction xs with
  | nil => simp [voL]
  | cons a as ih =>
    simp only [voL, Bool.and_eq_true, ih, List.mem_cons]
    constructor
    · rintro ⟨h1, h2⟩ x (rfl | hx)
      · exact h1
      · exact h2 x hx
    · intro h
      exact ⟨h a (Or.inl rfl), fun x hx => h x (Or.inr hx)⟩

theorem voE_all (r : PyRepr) (es : List (Value × Value)) :
    voE r es = true ↔ ∀ kv ∈ es, visitedOk r kv.2 = true := by
  induction es with
  | nil => simp [voE]
  | cons a as ih =>
    simp only [voE, Bool.and_eq_true, ih, List.mem_cons]
    constructor
    · rintro ⟨h1, h2⟩ kv (rfl | hkv)
      · exact h1
      · exact h2 kv hkv
    · intro h
      exact ⟨h a (Or.inl rfl), fun kv hkv => h kv (Or.inr hkv)⟩

theorem shorten_mapping_dict_le (es : List (Value × Value)) (m : Nat) :
    ∃ es2, shorten_mapping (.dict es) m = .dict es2 ∧ es2.length ≤ m ∧
      (es.length ≤ m → es2 = es) := by
  by_cases hle : es.length ≤ m
  · exact ⟨es, by simp [shorten_mapping, hle], hle, fun _ => rfl⟩
  · refine ⟨((es.map Prod.fst).take m).map (fun k => (k, dictGet es k)),
      by simp [shorten_mapping, hle], ?_, fun h => absurd h hle⟩
    rw [List.length_map, List.length_take]
    exact le_trans (Nat.min_le_left _ _) le_rfl

theorem shorten_sequence_le {r : PyRepr} {v : Value} {m : Nat} (h : pyLen v ≤ m) :
    shorten_sequence r v m = v := by
  simp [shorten_sequence, h]

theorem shorten_sequence_gt {r : PyRepr} {v : Value} {m : Nat} (h : m < pyLen v) :
    shorten_sequence r v m = .str (r.repr v) := by
  simp [shorten_sequence, Nat.not_le.mpr h]

theorem shorten_other_arm_shape (t : ShortenerTransform) (v out : Value)
    (h : (if t.safe_repr then do
            let s ← pyStrBuiltin v
            pure (Value.str (t.rpr.repr (.str s)))
          else
            pure (Value.str (t.rpr.repr v))) = .ok out) :
    ∃ s, out = .str s := by
  split at h
  · cases hs : pyStrBuiltin v with
    | error e => rw [hs] at h; simp at h
    | ok s =>
      rw [hs] at h
      simp only [pyBindOk, pyMapOk, pyPureOk] at h
      exact ⟨_, (Except.ok.inj h).symm⟩
  · exact ⟨_, (Except.ok.inj h).symm⟩

theorem shorten_other_ok_shape (t : ShortenerTransform) (v : Value) (out : Value)
    (h : shorten_other t v = .ok out) : out = Value.none ∨ ∃ s, out = .str s := by
  match v with
  | .none => exact Or.inl (Except.ok.inj h).symm
  | .str s => exact Or.inr (shorten_other_arm_shape t (.str s) out h)
  | .int n => exact Or.inr (shorten_other_arm_shape t (.int n) out h)
  | .dict es => exact Or.inr (shorten_other_arm_shape t (.dict es) out h)
  | .list xs => exact Or.inr (shorten_other_arm_shape t (.list xs) out h)
  | .tuple xs => exact Or.inr (shorten_other_arm_shape t (.tuple xs) out h)
  | .set xs => exact Or.inr (shorten_other_arm_shape t (.set xs) out h)
  | .frozenset xs => exact Or.inr (shorten_other_arm_shape t (.frozenset xs) out h)
  | .array xs => exact Or.inr (shorten_other_arm_shape t (.array xs) out h)
  | .deque xs => exact Or.inr (shorten_other_arm_shape t (.deque xs) out h)
  | .mapLike es s2 => exact Or.inr (shorten_other_arm_shape t (.mapLike es s2) out h)
  | .obj c sf i => exact Or.inr (shorten_other_arm_shape t (.obj c sf i) out h)

theorem get_max_size_dict (t : ShortenerTransform) (es : List (Value × Value)) :
    get_max_size t (.dict es) = t.rpr.maxdict := rfl

theorem get_max_size_list (t : ShortenerTransform) (xs : List Value) :
    get_max_size t (.list xs) = t.rpr.maxlist := rfl

theorem get_max_size_tuple (t : ShortenerTransform) (xs : List Value) :
    get_max_size t (.tuple xs) = t.rpr.maxtuple := rfl

theorem get_max_size_array (t : ShortenerTransform) (xs : List Int) :
    get_max_size t (.array xs) = t.rpr.maxarray := rfl

theorem get_max_size_deque (t : ShortenerTransform) (xs : List Value) :
    get_max_size t (.deque xs) = t.rpr.maxdeque := rfl

theorem shortenF_succ_dict (t : ShortenerTransform) (g : Nat) (es : List (Value × Value)) :
    shortenF t (g + 1) (.dict es) = traverseF t g (shorten_mapping (.dict es) t.rpr.maxdict) := rfl

theorem shortenF_succ_str (t : ShortenerTransform) (g : Nat) (s : Str) :
    shortenF t (g + 1) (.str s) = pure (shorten_sequence t.rpr (.str s) t.rpr.maxstring) := rfl

theorem shortenF_succ_list (t : ShortenerTransform) (g : Nat) (xs : List Value) :
    shortenF t (g + 1) (.list xs)
      = traverseF t g (shorten_sequence t.rpr (.list xs) t.rpr.maxlist) := rfl

theorem shortenF_succ_tuple (t : ShortenerTransform) (g : Nat) (xs : List Value) :
    shortenF t (g + 1) (.tuple xs)
      = traverseF t g (shorten_sequence t.rpr (.tuple xs) t.rpr.maxtuple) := rfl

theorem shortenF_succ_array (t : ShortenerTransform) (g : Nat) (xs : List Int) :
    shortenF t (g + 1) (.array xs)
      = traverseF t g (shorten_sequence t.rpr (.array xs) t.rpr.maxarray) := rfl

theorem shortenF_succ_deque (t : ShortenerTransform) (g : Nat) (xs : List Value) :
    shortenF t (g + 1) (.deque xs)
      = traverseF t g (shorten_sequence t.rpr (.deque xs) t.rpr.maxdeque) := rfl

theorem shortenF_succ_int (t : ShortenerTransform) (g : Nat) (n : Int) :
    shortenF t (g + 1) (.int n) = pure (shorten_basic t.rpr (.int n) t.rpr.maxlong) := rfl

theorem shortenF_succ_none (t : ShortenerTransform) (g : Nat) :
    shortenF t (g + 1) Value.none = shorten_other t Value.none := rfl

theorem shortenF_succ_set (t : ShortenerTransform) (g : Nat) (xs : List Value) :
    shortenF t (g + 1) (.set xs) = shorten_other t (.set xs) := rfl

theorem shortenF_succ_frozenset (t : ShortenerTransform) (g : Nat) (xs : List Value) :
    shortenF t (g + 1) (.frozenset xs) = shorten_other t (.frozenset xs) := rfl

theorem shortenF_succ_obj (t : ShortenerTransform) (g : Nat) (c : Str) (sf : Option Str)
    (i : Nat) : shortenF t (g + 1) (.obj c sf i) = shorten_other t (.obj c sf i) := rfl

theorem shortenF_succ_mapLike (t : ShortenerTransform) (g : Nat)
    (es : List (Value × Value)) (s : Str) :
    shortenF t (g + 1) (.mapLike es s) = shorten_other t (.mapLike es s) := rfl

theorem traverseF_dict_ok {t : ShortenerTransform} {g : Nat} {es : List (Value × Value)}
    {out : Value} (h : traverseF t (g + 1) (.dict es) = .ok out) :
    ∃ es2, dictItemsF t g es = .ok es2 ∧ out = .dict es2 := by
  rw [show traverseF t (g + 1) (.dict es)
      = (do pure (Value.dict (← dictItemsF t g es))) from rfl] at h
  cases hm : dictItemsF t g es with
  | error e => rw [hm] at h; exact Except.noConfusion h
  | ok es2 =>
    rw [hm] at h
    simp only [pyBindOk, pyMapOk, pyPureOk] at h
    exact ⟨es2, rfl, (Except.ok.inj h).symm⟩

theorem traverseF_list_ok {t : ShortenerTransform} {g : Nat} {xs : List Value}
    {out : Value} (h : traverseF t (g + 1) (.list xs) = .ok out) :
    ∃ xs2, seqItemsF t g xs = .ok xs2 ∧ out = .list xs2 := by
  rw [show traverseF t (g + 1) (.list xs)
      = (do pure (Value.list (← seqItemsF t g xs))) from rfl] at h
  cases hm : seqItemsF t g xs with
  | error e => rw [hm] at h; exact Except.noConfusion h
  | ok xs2 =>
    rw [hm] at h
    simp only [pyBindOk, pyMapOk, pyPureOk] at h
    exact ⟨xs2, rfl, (Except.ok.inj h).symm⟩

theorem traverseF_deque_ok {t : ShortenerTransform} {g : Nat} {xs : List Value}
    {out : Value} (h : traverseF t (g + 1) (.deque xs) = .ok out) :
    ∃ xs2, seqItemsF t g xs = .ok xs2 ∧ out = .deque xs2 := by
  rw [show traverseF t (g + 1) (.deque xs)
      = (do pure (Value.deque (← seqItemsF t g xs))) from rfl] at h
  cases hm : seqItemsF t g xs with
  | error e => rw [hm] at h; exact Except.noConfusion h
  | ok xs2 =>
    rw [hm] at h
    simp only [pyBindOk, pyMapOk, pyPureOk] at h
    exact ⟨xs2, rfl, (Except.ok.inj h).symm⟩

theorem traverseF_array_ok {t : ShortenerTransform} {g : Nat} {xs : List Int}
    {out : Value} (h : traverseF t (g + 1) (.array xs) = .ok out) :
    ∃ xs2, arrayItemsF t g xs = .ok xs2 ∧ out = .array xs2 := by
  rw [show traverseF t (g + 1) (.array xs)
      = (do pure (Value.array (← arrayItemsF t g xs))) from rfl] at h
  cases hm : arrayItemsF t g xs with
  | error e => rw [hm] at h; exact Except.noConfusion h
  | ok xs2 =>
    rw [hm] at h
    simp only [pyBindOk, pyMapOk, pyPureOk] at h
    exact ⟨xs2, rfl, (Except.ok.inj h).symm⟩

theorem traverseF_tuple_ok {t : ShortenerTransform} {g : Nat} {xs : List Value}
    {out : Value} (h : traverseF t (g + 1) (.tuple xs) = .ok out) :
    out = .tuple [] ∧ xs = [] := by
  match xs with
  | [] => exact ⟨(Except.ok.inj h).symm, rfl⟩
  | x :: rest =>
    rw [show traverseF t (g + 1) (.tuple (x :: rest))
        = (do
            let _ ← tupleFirstF t g x
            throw (.typeError tupleAssignMsg)) from rfl] at h
    cases hm : tupleFirstF t g x with
    | error e => rw [hm] at h; exact Except.noConfusion h
    | ok u =>
      rw [hm] at h
      exact Except.noConfusion h

theorem twoBind_ok {α β γ : Type} {m1 : Except PyErr α} {m2 : Except PyErr β}
    {f : α → β → γ} {out : γ}
    (h : (m1 >>= fun a => m2 >>= fun b => pure (f a b)) = .ok out) :
    ∃ a b, m1 = .ok a ∧ m2 = .ok b ∧ out = f a b := by
  cases h1 : m1 with
  | error e => rw [h1] at h; exact Except.noConfusion h
  | ok a =>
    rw [h1] at h
    simp only [pyBindOk] at h
    cases h2 : m2 with
    | error e => rw [h2] at h; exact Except.noConfusion h
    | ok b =>
      rw [h2] at h
      simp only [pyBindOk, pyPureOk] at h
      exact ⟨a, b, rfl, rfl, (Except.ok.inj h).symm⟩

theorem dictItemsF_cons_ok {t : ShortenerTransform} {g : Nat} {k v : Value}
    {rest : List (Value × Value)} {out : List (Value × Value)}
    (h : dictItemsF t (g + 1) ((k, v) :: rest) = .ok out) :
    ∃ v2 rest2, traverseStep t g v = .ok v2 ∧ dictItemsF t g rest = .ok rest2 ∧
      out = (k, v2) :: rest2 := by
  rw [show dictItemsF t (g + 1) ((k, v) :: rest)
      = (if isDictV v = true then
          (traverseF t g (shorten_mapping v (get_max_size t v)) >>= fun v2 =>
            dictItemsF t g rest >>= fun rest2 => pure ((k, v2) :: rest2))
        else if isSequenceType v = true then
          (traverseF t g (shorten_sequence t.rpr v (get_max_size t v)) >>= fun v2 =>
            dictItemsF t g rest >>= fun rest2 => pure ((k, v2) :: rest2))
        else
          (shortenF t g v >>= fun v2 =>
            dictItemsF t g rest >>= fun rest2 => pure ((k, v2) :: rest2))) from rfl] at h
  by_cases hd : isDictV v = true
  · rw [if_pos hd] at h
    obtain ⟨v2, rest2, hA, hR, hout⟩ := twoBind_ok h
    exact ⟨v2, rest2, by simp only [traverseStep, if_pos hd]; exact hA, hR, hout⟩
  · rw [if_neg hd] at h
    by_cases hs : isSequenceType v = true
    · rw [if_pos hs] at h
      obtain ⟨v2, rest2, hA, hR, hout⟩ := twoBind_ok h
      exact ⟨v2, rest2, by simp only [traverseStep, if_neg hd, if_pos hs]; exact hA, hR, hout⟩
    · rw [if_neg hs] at h
      obtain ⟨v2, rest2, hA, hR, hout⟩ := twoBind_ok h
      exact ⟨v2, rest2, by simp only [traverseStep, if_neg hd, if_neg hs]; exact hA, hR, hout⟩

theorem seqItemsF_cons_ok {t : ShortenerTransform} {g : Nat} {x : Value}
    {rest : List Value} {out : List Value}
    (h : seqItemsF t (g + 1) (x :: rest) = .ok out) :
    ∃ x2 rest2, traverseStep t g x = .ok x2 ∧ seqItemsF t g rest = .ok rest2 ∧
      out = x2 :: rest2 := by
  rw [show seqItemsF t (g + 1) (x :: rest)
      = (if isDictV x = true then
          (traverseF t g (shorten_mapping x (get_max_size t x)) >>= fun x2 =>
            seqItemsF t g rest >>= fun rest2 => pure (x2 :: rest2))
        else if isSequenceType x = true then
          (traverseF t g (shorten_sequence t.rpr x (get_max_size t x)) >>= fun x2 =>
            seqItemsF t g rest >>= fun rest2 => pure (x2 :: rest2))
        else
          (shortenF t g x >>= fun x2 =>
            seqItemsF t g rest >>= fun rest2 => pure (x2 :: rest2))) from rfl] at h
  by_cases hd : isDictV x = true
  · rw [if_pos hd] at h
    obtain ⟨x2, rest2, hA, hR, hout⟩ := twoBind_ok h
    exact ⟨x2, rest2, by simp only [traverseStep, if_pos hd]; exact hA, hR, hout⟩
  · rw [if_neg hd] at h
    by_cases hs : isSequenceType x = true
    · rw [if_pos hs] at h
      obtain ⟨x2, rest2, hA, hR, hout⟩ := twoBind_ok h
      exact ⟨x2, rest2, by simp only [traverseStep, if_neg hd, if_pos hs]; exact hA, hR, hout⟩
    · rw [if_neg hs] at h
      obtain ⟨x2, rest2, hA, hR, hout⟩ := twoBind_ok h
      exact ⟨x2, rest2, by simp only [traverseStep, if_neg hd, if_neg hs]; exact hA, hR, hout⟩

theorem arrayItemsF_cons_ok {t : ShortenerTransform} {g : Nat} {n : Int}
    {rest : List Int} {out : List Int}
    (h : arrayItemsF t (g + 1) (n :: rest) = .ok out) :
    ∃ m rest2, shortenF t g (.int n) = .ok (.int m) ∧ arrayItemsF t g rest = .ok rest2 ∧
      out = m :: rest2 := by
  rw [show arrayItemsF t (g + 1) (n :: rest)
      = (do
          let x2 ← shortenF t g (.int n)
          match x2 with
          | .int m => do pure (m :: (← arrayItemsF t g rest))
          | _ => throw (.typeError arrayAssignMsg)) from rfl] at h
  cases h1 : shortenF t g (.int n) with
  | error e => rw [h1] at h; exact Except.noConfusion h
  | ok x2 =>
    rw [h1] at h
    simp only [pyBindOk] at h
    match x2, h with
    | .int m, h =>
      cases h2 : arrayItemsF t g rest with
      | error e => rw [h2] at h; exact Except.noConfusion h
      | ok rest2 =>
        rw [h2] at h
        simp only [pyBindOk, pyMapOk, pyPureOk] at h
        exact ⟨m, rest2, rfl, rfl, (Except.ok.inj h).symm⟩

theorem shorten_sequence_str_shape (r : PyRepr) (s : Str) (m : Nat) :
    ∃ s2, shorten_sequence r (.str s) m = .str s2 := by
  by_cases hle : pyLen (.str s) ≤ m
  · exact ⟨s, shorten_sequence_le hle⟩
  · exact ⟨r.repr (.str s), shorten_sequence_gt (by omega)⟩

theorem traverseStep_dict (t : ShortenerTransform) (g : Nat) (es : List (Value × Value)) :
    traverseStep t g (.dict es) = traverseF t g (shorten_mapping (.dict es) t.rpr.maxdict) := rfl

theorem traverseStep_list (t : ShortenerTransform) (g : Nat) (xs : List Value) :
    traverseStep t g (.list xs)
      = traverseF t g (shorten_sequence t.rpr (.list xs) t.rpr.maxlist) := rfl

theorem traverseStep_tuple (t : ShortenerTransform) (g : Nat) (xs : List Value) :
    traverseStep t g (.tuple xs)
      = traverseF t g (shorten_sequence t.rpr (.tuple xs) t.rpr.maxtuple) := rfl

theorem traverseStep_array (t : ShortenerTransform) (g : Nat) (xs : List Int) :
    traverseStep t g (.array xs)
      = traverseF t g (shorten_sequence t.rpr (.array xs) t.rpr.maxarray) := rfl

theorem traverseStep_deque (t : ShortenerTransform) (g : Nat) (xs : List Value) :
    traverseStep t g (.deque xs)
      = traverseF t g (shorten_sequence t.rpr (.deque xs) t.rpr.maxdeque) := rfl

theorem traverseStep_str (t : ShortenerTransform) (g : Nat) (s : Str) :
    traverseStep t g (.str s) = shortenF t g (.str s) := rfl

theorem traverseStep_int (t : ShortenerTransform) (g : Nat) (n : Int) :
    traverseStep t g (.int n) = shortenF t g (.int n) := rfl

theorem traverseStep_none (t : ShortenerTransform) (g : Nat) :
    traverseStep t g Value.none = shortenF t g Value.none := rfl

theorem traverseStep_set (t : ShortenerTransform) (g : Nat) (xs : List Value) :
    traverseStep t g (.set xs) = shortenF t g (.set xs) := rfl

theorem traverseStep_frozenset (t : ShortenerTransform) (g : Nat) (xs : List Value) :
    traverseStep t g (.frozenset xs) = shortenF t g (.frozenset xs) := rfl

theorem traverseStep_obj (t : ShortenerTransform) (g : Nat) (c : Str) (sf : Option Str)
    (i : Nat) : traverseStep t g (.obj c sf i) = shortenF t g (.obj c sf i) := rfl

theorem traverseStep_mapLike (t : ShortenerTransform) (g : Nat)
    (es : List (Value × Value)) (s : Str) :
    traverseStep t g (.mapLike es s) = shortenF t g (.mapLike es s) := rfl

/-- Master invariant of the shortening pass: whenever `_shorten` (or the
traversal, or one of its loops) succeeds at any fuel, the result satisfies
`visitedOk`: every container in a visited position is within its category's
cap, numeric leaves are within `maxlong`, and no set, frozenset, nonempty
tuple, opaque or mapping-like object survives in a visited position. -/
theorem shorten_visitedOk_all (t : ShortenerTransform) : ∀ fuel : Nat,
    (∀ v out, shortenF t fuel v = .ok out → visitedOk t.rpr out = true) ∧
    (∀ d out, traverseF t fuel d = .ok out → travPost t.rpr d out) ∧
    (∀ es out, dictItemsF t fuel es = .ok out → out.length = es.length ∧
      out.map Prod.fst = es.map Prod.fst ∧ ∀ kv ∈ out, visitedOk t.rpr kv.2 = true) ∧
    (∀ xs out, seqItemsF t fuel xs = .ok out → out.length = xs.length ∧
      ∀ x ∈ out, visitedOk t.rpr x = true) ∧
    (∀ xs out, arrayItemsF t fuel xs = .ok out → out.length = xs.length ∧
      ∀ n ∈ out, (intStr n).length ≤ t.rpr.maxlong) := by
  intro fuel
  induction fuel with
  | zero =>
    exact ⟨fun v out h => Except.noConfusion h, fun d out h => Except.noConfusion h,
      fun es out h => Except.noConfusion h, fun xs out h => Except.noConfusion h,
      fun xs out h => Except.noConfusion h⟩
  | succ g ih =>
    obtain ⟨ihSh, ihTr, ihDi, ihSeq, ihArr⟩ := ih
    have stepDict : ∀ (es : List (Value × Value)) out,
        traverseF t g (shorten_mapping (.dict es) t.rpr.maxdict) = .ok out →
        visitedOk t.rpr out = true := by
      intro es out h
      obtain ⟨es2, hsm, hlen2, -⟩ := shorten_mapping_dict_le es t.rpr.maxdict
      rw [hsm] at h
      obtain ⟨es3, rfl, hlen3, -, hvals⟩ := ihTr _ _ h
      simp only [visitedOk, Bool.and_eq_true, decide_eq_true_eq]
      exact ⟨by omega, (voE_all _ _).mpr hvals⟩
    have stepSeq : ∀ v out, isSequenceType v = true →
        traverseF t g (shorten_sequence t.rpr v (get_max_size t v)) = .ok out →
        visitedOk t.rpr out = true := by
      intro v out hseq h
      cases v with
      | list xs =>
        rw [get_max_size_list] at h
        by_cases hle : xs.length ≤ t.rpr.maxlist
        · rw [shorten_sequence_le hle] at h
          obtain ⟨xs2, rfl, hlen, hall⟩ := ihTr _ _ h
          simp only [visitedOk, Bool.and_eq_true, decide_eq_true_eq]
          exact ⟨by omega, (voL_all _ _).mpr hall⟩
        · rw [shorten_sequence_gt (by simp only [pyLen]; omega)] at h
          have hout := ihTr _ _ h
          rw [show travPost t.rpr (.str (t.rpr.repr (.list xs))) out
              = (out = .str (t.rpr.repr (.list xs))) from rfl] at hout
          rw [hout]
          rfl
      | tuple xs =>
        rw [get_max_size_tuple] at h
        by_cases hle : xs.length ≤ t.rpr.maxtuple
        · rw [shorten_sequence_le hle] at h
          obtain ⟨rfl, -⟩ := ihTr _ _ h
          rfl
        · rw [shorten_sequence_gt (by simp only [pyLen]; omega)] at h
          have hout := ihTr _ _ h
          rw [show travPost t.rpr (.str (t.rpr.repr (.tuple xs))) out
              = (out = .str (t.rpr.repr (.tuple xs))) from rfl] at hout
          rw [hout]
          rfl
      | array xs =>
        rw [get_max_size_array] at h
        by_cases hle : xs.length ≤ t.rpr.maxarray
        · rw [shorten_sequence_le hle] at h
          obtain ⟨xs2, rfl, hlen, hbnd⟩ := ihTr _ _ h
          simp only [visitedOk, Bool.and_eq_true, decide_eq_true_eq, List.all_eq_true]
          exact ⟨by omega, fun n hn => by simpa using hbnd n hn⟩
        · rw [shorten_sequence_gt (by simp only [pyLen]; omega)] at h
          have hout := ihTr _ _ h
          rw [show travPost t.rpr (.str (t.rpr.repr (.array xs))) out
              = (out = .str (t.rpr.repr (.array xs))) from rfl] at hout
          rw [hout]
          rfl
      | deque xs =>
        rw [get_max_size_deque] at h
        by_cases hle : xs.length ≤ t.rpr.maxdeque
        · rw [shorten_sequence_le hle] at h
          obtain ⟨xs2, rfl, hlen, hall⟩ := ihTr _ _ h
          simp only [visitedOk, Bool.and_eq_true, decide_eq_true_eq]
          exact ⟨by omega, (voL_all _ _).mpr hall⟩
        · rw [shorten_sequence_gt (by simp only [pyLen]; omega)] at h
          have hout := ihTr _ _ h
          rw [show travPost t.rpr (.str (t.rpr.repr (.deque xs))) out
              = (out = .str (t.rpr.repr (.deque xs))) from rfl] at hout
          rw [hout]
          rfl
      | str s => exact absurd hseq (by simp [isSequenceType])
      | int n => exact absurd hseq (by simp [isSequenceType])
      | dict es => exact absurd hseq (by simp [isSequenceType])
      | set xs => exact absurd hseq (by simp [isSequenceType])
      | frozenset xs => exact absurd hseq (by simp [isSequenceType])
      | mapLike es s => exact absurd hseq (by simp [isSequenceType])
      | none => exact absurd hseq (by simp [isSequenceType])
      | obj c sf i => exact absurd hseq (by simp [isSequenceType])
    have stepOk : ∀ v out, traverseStep t g v = .ok out → visitedOk t.rpr out = true := by
      intro v out h
      cases v with
      | dict es =>
        rw [traverseStep_dict] at h
        exact stepDict es out h
      | list xs =>
        rw [traverseStep_list] at h
        exact stepSeq (.list xs) out rfl h
      | tuple xs =>
        rw [traverseStep_tuple] at h
        exact stepSeq (.tuple xs) out rfl h
      | array xs =>
        rw [traverseStep_array] at h
        exact stepSeq (.array xs) out rfl h
      | deque xs =>
        rw [traverseStep_deque] at h
        exact stepSeq (.deque xs) out rfl h
      | str s => exact ihSh _ _ h
      | int n => exact ihSh _ _ h
      | none => exact ihSh _ _ h
      | set xs => exact ihSh _ _ h
      | frozenset xs => exact ihSh _ _ h
      | obj c sf i => exact ihSh _ _ h
      | mapLike es s => exact ihSh _ _ h
    refine ⟨?_, ?_, ?_, ?_, ?_⟩
    · intro v out h
      cases v with
      | dict es =>
        rw [shortenF_succ_dict] at h
        exact stepDict es out h
      | str s =>
        rw [shortenF_succ_str] at h
        obtain ⟨s2, hs2⟩ := shorten_sequence_str_shape t.rpr s t.rpr.maxstring
        rw [hs2] at h
        rw [← Except.ok.inj h]
        rfl
      | int n =>
        rw [shortenF_succ_int] at h
        by_cases hle : (intStr n).length ≤ t.rpr.maxlong
        · rw [show shorten_basic t.rpr (.int n) t.rpr.maxlong = .int n from by
            simp [shorten_basic, hle]] at h
          rw [← Except.ok.inj h]
          simp only [visitedOk, decide_eq_true_eq]
          exact hle
        · rw [show shorten_basic t.rpr (.int n) t.rpr.maxlong
              = .str (t.rpr.repr (.int n)) from by simp [shorten_basic, hle]] at h
          rw [← Except.ok.inj h]
          rfl
      | list xs =>
        rw [shortenF_succ_list] at h
        exact stepSeq (.list xs) out rfl h
      | tuple xs =>
        rw [shortenF_succ_tuple] at h
        exact stepSeq (.tuple xs) out rfl h
      | array xs =>
        rw [shortenF_succ_array] at h
        exact stepSeq (.array xs) out rfl h
      | deque xs =>
        rw [shortenF_succ_deque] at h
        exact stepSeq (.deque xs) out rfl h
      | none =>
        rw [shortenF_succ_none] at h
        rw [← Except.ok.inj h]
        rfl
      | set xs =>
        rw [shortenF_succ_set] at h
        rcases shorten_other_ok_shape t _ out h with rfl | ⟨s, rfl⟩ <;> rfl
      | frozenset xs =>
        rw [shortenF_succ_frozenset] at h
        rcases shorten_other_ok_shape t _ out h with rfl | ⟨s, rfl⟩ <;> rfl
      | obj c sf i =>
        rw [shortenF_succ_obj] at h
        rcases shorten_other_ok_shape t _ out h with rfl | ⟨s, rfl⟩ <;> rfl
      | mapLike es s =>
        rw [shortenF_succ_mapLike] at h
        rcases shorten_other_ok_shape t _ out h with rfl | ⟨s, rfl⟩ <;> rfl
    · intro d out h
      cases d with
      | dict es =>
        obtain ⟨es2, hm, rfl⟩ := traverseF_dict_ok h
        obtain ⟨hlen, hkeys, hvals⟩ := ihDi es es2 hm
        exact ⟨es2, rfl, hlen, hkeys, hvals⟩
      | list xs =>
        obtain ⟨xs2, hm, rfl⟩ := traverseF_list_ok h
        obtain ⟨hlen, hall⟩ := ihSeq xs xs2 hm
        exact ⟨xs2, rfl, hlen, hall⟩
      | deque xs =>
        obtain ⟨xs2, hm, rfl⟩ := traverseF_deque_ok h
        obtain ⟨hlen, hall⟩ := ihSeq xs xs2 hm
        exact ⟨xs2, rfl, hlen, hall⟩
      | array xs =>
        obtain ⟨xs2, hm, rfl⟩ := traverseF_array_ok h
        obtain ⟨hlen, hall⟩ := ihArr xs xs2 hm
        exact ⟨xs2, rfl, hlen, hall⟩
      | tuple xs => exact traverseF_tuple_ok h
      | str s => exact (Except.ok.inj h).symm
      | int n => exact (Except.ok.inj h).symm
      | none => exact (Except.ok.inj h).symm
      | set xs => exact (Except.ok.inj h).symm
      | frozenset xs => exact (Except.ok.inj h).symm
      | obj c sf i => exact (Except.ok.inj h).symm
      | mapLike es s => exact (Except.ok.inj h).symm
    · intro es out h
      match es with
      | [] =>
        rw [← Except.ok.inj h]
        exact ⟨rfl, rfl, fun kv hkv => absurd hkv (List.not_mem_nil kv)⟩
      | (k, v) :: rest =>
        obtain ⟨v2, rest2, hstep, hrest, rfl⟩ := dictItemsF_cons_ok h
        obtain ⟨hlen, hkeys, hvals⟩ := ihDi rest rest2 hrest
        refine ⟨by simp [hlen], by simp [hkeys], ?_⟩
        intro kv hkv
        rcases List.mem_cons.mp hkv with hEq | hkv2
        · rw [hEq]
          exact stepOk v v2 hstep
        · exact hvals kv hkv2
    · intro xs out h
      match xs with
      | [] =>
        rw [← Except.ok.inj h]
        exact ⟨rfl, fun x hx => absurd hx (List.not_mem_nil x)⟩
      | x :: rest =>
        obtain ⟨x2, rest2, hstep, hrest, rfl⟩ := seqItemsF_cons_ok h
        obtain ⟨hlen, hall⟩ := ihSeq rest rest2 hrest
        refine ⟨by simp [hlen], ?_⟩
        intro y hy
        rcases List.mem_cons.mp hy with hEq | hy2
        · rw [hEq]
          exact stepOk x x2 hstep
        · exact hall y hy2
    · intro xs out h
      match xs with
      | [] =>
        rw [← Except.ok.inj h]
        exact ⟨rfl, fun n hn => absurd hn (List.not_mem_nil n)⟩
      | n :: rest =>
        obtain ⟨m, rest2, hsh, hrest, rfl⟩ := arrayItemsF_cons_ok h
        obtain ⟨hlen, hall⟩ := ihArr rest rest2 hrest
        refine ⟨by simp [hlen], ?_⟩
        intro y hy
        rcases List.mem_cons.mp hy with hEq | hy2
        · rw [hEq]
          have := ihSh (.int n) (.int m) hsh
          simpa [visitedOk] using this
        · exact hall y hy2

/-- C1 (amended): for every eligible input on which the transform returns
successfully, the output satisfies the invariant actually guaranteed on
visited positions — every container in a visited position (the root, dict
values, sequence elements) holds at most its category's configured
element/key count, numeric leaves have a `str` form within `maxlong`, and
no nonempty tuple, set, frozenset, opaque object or mapping-like value
survives in a visited position.  String leaves are not bounded by the text
limit, and dict keys are never rewritten. -/
theorem C1_visited_invariant (t : ShortenerTransform) (o key out : Value)
    (helig : should_shorten t o key = true)
    (hok : t.default o key = .ok out) :
    visitedOk t.rpr out = true := by
  unfold ShortenerTransform.default at hok
  rw [if_pos helig] at hok
  exact (shorten_visitedOk_all t (2 * vsize o + 2)).1 o out hok

/-- Witness for the amended C1: the transform succeeds on a small eligible
dict and its output satisfies the visited-position invariant. -/
theorem C1_visited_invariant_witness :
    should_shorten trK c1winput keyK = true ∧
    visitedOk trK.rpr c1winput = true :=
  ⟨rfl, C1_visited_invariant trK c1winput keyK c1winput rfl rfl⟩

theorem stL_all (r : PyRepr) (xs : List Value) :
    stL r xs = true ↔ ∀ x ∈ xs, stableB r x = true := by
  induction xs with
  | nil => simp [stL]
  | cons a as ih =>
    simp only [stL, Bool.and_eq_true, ih, List.mem_cons]
    constructor
    · rintro ⟨h1, h2⟩ x (rfl | hx)
      · exact h1
      · exact h2 x hx
    · intro h
      exact ⟨h a (Or.inl rfl), fun x hx => h x (Or.inr hx)⟩

theorem stE_all (r : PyRepr) (es : List (Value × Value)) :
    stE r es = true ↔ ∀ kv ∈ es, stableB r kv.2 = true := by
  induction es with
  | nil => simp [stE]
  | cons a as ih =>
    simp only [stE, Bool.and_eq_true, ih, List.mem_cons]
    constructor
    · rintro ⟨h1, h2⟩ kv (rfl | hkv)
      · exact h1
      · exact h2 kv hkv
    · intro h
      exact ⟨h a (Or.inl rfl), fun kv hkv => h kv (Or.inr hkv)⟩

theorem traverseF_dict_build {t : ShortenerTransform} {g : Nat}
    {es es2 : List (Value × Value)} (h : dictItemsF t g es = .ok es2) :
    traverseF t (g + 1) (.dict es) = .ok (.dict es2) := by
  rw [show traverseF t (g + 1) (.dict es)
      = (do pure (Value.dict (← dictItemsF t g es))) from rfl, h]
  rfl

theorem traverseF_list_build {t : ShortenerTransform} {g : Nat}
    {xs xs2 : List Value} (h : seqItemsF t g xs = .ok xs2) :
    traverseF t (g + 1) (.list xs) = .ok (.list xs2) := by
  rw [show traverseF t (g + 1) (.list xs)
      = (do pure (Value.list (← seqItemsF t g xs))) from rfl, h]
  rfl

theorem traverseF_deque_build {t : ShortenerTransform} {g : Nat}
    {xs xs2 : List Value} (h : seqItemsF t g xs = .ok xs2) :
    traverseF t (g + 1) (.deque xs) = .ok (.deque xs2) := by
  rw [show traverseF t (g + 1) (.deque xs)
      = (do pure (Value.deque (← seqItemsF t g xs))) from rfl, h]
  rfl

theorem traverseF_array_build {t : ShortenerTransform} {g : Nat}
    {xs xs2 : List Int} (h : arrayItemsF t g xs = .ok xs2) :
    traverseF t (g + 1) (.array xs) = .ok (.array xs2) := by
  rw [show traverseF t (g + 1) (.array xs)
      = (do pure (Value.array (← arrayItemsF t g xs))) from rfl, h]
  rfl

theorem dictItemsF_cons_build {t : ShortenerTransform} {g : Nat} {k v v2 : Value}
    {rest rest2 : List (Value × Value)}
    (h1 : traverseStep t g v = .ok v2) (h2 : dictItemsF t g rest = .ok rest2) :
    dictItemsF t (g + 1) ((k, v) :: rest) = .ok ((k, v2) :: rest2) := by
  rw [show dictItemsF t (g + 1) ((k, v) :: rest)
      = (if isDictV v = true then
          (traverseF t g (shorten_mapping v (get_max_size t v)) >>= fun v2 =>
            dictItemsF t g rest >>= fun rest2 => pure ((k, v2) :: rest2))
        else if isSequenceType v = true then
          (traverseF t g (shorten_sequence t.rpr v (get_max_size t v)) >>= fun v2 =>
            dictItemsF t g rest >>= fun rest2 => pure ((k, v2) :: rest2))
        else
          (shortenF t g v >>= fun v2 =>
            dictItemsF t g rest >>= fun rest2 => pure ((k, v2) :: rest2))) from rfl]
  by_cases hd : isDictV v = true
  · have hts : traverseStep t g v
        = traverseF t g (shorten_mapping v (get_max_size t v)) := by
      simp only [traverseStep, if_pos hd]
    rw [if_pos hd, ← hts, h1]
    simp only [pyBindOk]
    rw [h2]
    simp only [pyBindOk, pyPureOk]
  · rw [if_neg hd]
    by_cases hs : isSequenceType v = true
    · have hts : traverseStep t g v
          = traverseF t g (shorten_sequence t.rpr v (get_max_size t v)) := by
        simp only [traverseStep, if_neg hd, if_pos hs]
      rw [if_pos hs, ← hts, h1]
      simp only [pyBindOk]
      rw [h2]
      simp only [pyBindOk, pyPureOk]
    · have hts : traverseStep t g v = shortenF t g v := by
        simp only [traverseStep, if_neg hd, if_neg hs]
      rw [if_neg hs, ← hts, h1]
      simp only [pyBindOk]
      rw [h2]
      simp only [pyBindOk, pyPureOk]

theorem seqItemsF_cons_build {t : ShortenerTransform} {g : Nat} {x x2 : Value}
    {rest rest2 : List Value}
    (h1 : traverseStep t g x = .ok x2) (h2 : seqItemsF t g rest = .ok rest2) :
    seqItemsF t (g + 1) (x :: rest) = .ok (x2 :: rest2) := by
  rw [show seqItemsF t (g + 1) (x :: rest)
      = (if isDictV x = true then
          (traverseF t g (shorten_mapping x (get_max_size t x)) >>= fun x2 =>
            seqItemsF t g rest >>= fun rest2 => pure (x2 :: rest2))
        else if isSequenceType x = true then
          (traverseF t g (shorten_sequence t.rpr x (get_max_size t x)) >>= fun x2 =>
            seqItemsF t g rest >>= fun rest2 => pure (x2 :: rest2))
        else
          (shortenF t g x >>= fun x2 =>
            seqItemsF t g rest >>= fun rest2 => pure (x2 :: rest2))) from rfl]
  by_cases hd : isDictV x = true
  · have hts : traverseStep t g x
        = traverseF t g (shorten_mapping x (get_max_size t x)) := by
      simp only [traverseStep, if_pos hd]
    rw [if_pos hd, ← hts, h1]
    simp only [pyBindOk]
    rw [h2]
    simp only [pyBindOk, pyPureOk]
  · rw [if_neg hd]
    by_cases hs : isSequenceType x = true
    · have hts : traverseStep t g x
          = traverseF t g (shorten_sequence t.rpr x (get_max_size t x)) := by
        simp only [traverseStep, if_neg hd, if_pos hs]
      rw [if_pos hs, ← hts, h1]
      simp only [pyBindOk]
      rw [h2]
      simp only [pyBindOk, pyPureOk]
    · have hts : traverseStep t g x = shortenF t g x := by
        simp only [traverseStep, if_neg hd, if_neg hs]
      rw [if_neg hs, ← hts, h1]
      simp only [pyBindOk]
      rw [h2]
      simp only [pyBindOk, pyPureOk]

theorem arrayItemsF_cons_build {t : ShortenerTransform} {g : Nat} {n m : Int}
    {rest rest2 : List Int}
    (h1 : shortenF t g (.int n) = .ok (.int m))
    (h2 : arrayItemsF t g rest = .ok rest2) :
    arrayItemsF t (g + 1) (n :: rest) = .ok (m :: rest2) := by
  rw [show arrayItemsF t (g + 1) (n :: rest)
      = (do
          let x2 ← shortenF t g (.int n)
          match x2 with
          | .int m => do pure (m :: (← arrayItemsF t g rest))
          | _ => throw (.typeError arrayAssignMsg)) from rfl, h1]
  show (do pure (m :: (← arrayItemsF t g rest)) : Except PyErr (List Int))
      = .ok (m :: rest2)
  rw [h2]
  rfl

/-- Master fixed-point lemma: on every `stableB` value the shortening pass
(and the traversal and each of its loops, on stable elements) returns its
input unchanged, given fuel proportional to the value's size. -/
theorem shorten_stable_all (t : ShortenerTransform) : ∀ fuel : Nat,
    (∀ v, stableB t.rpr v = true → 2 * vsize v ≤ fuel → shortenF t fuel v = .ok v) ∧
    (∀ d, stableB t.rpr d = true → 2 * vsize d ≤ fuel + 1 → traverseF t fuel d = .ok d) ∧
    (∀ es, (∀ kv ∈ es, stableB t.rpr kv.2 = true) → 2 * esize es ≤ fuel →
      dictItemsF t fuel es = .ok es) ∧
    (∀ xs, (∀ x ∈ xs, stableB t.rpr x = true) → 2 * lsize xs ≤ fuel →
      seqItemsF t fuel xs = .ok xs) ∧
    (∀ xs : List Int, (∀ n ∈ xs, (intStr n).length ≤ t.rpr.maxlong) →
      2 * xs.length + 1 ≤ fuel → arrayItemsF t fuel xs = .ok xs) := by
  intro fuel
  induction fuel with
  | zero =>
    refine ⟨?_, ?_, ?_, ?_, ?_⟩
    · intro v _ hf
      have := vsize_pos v
      omega
    · intro d _ hf
      have := vsize_pos d
      omega
    · intro es _ hf
      cases es <;> simp only [esize] at hf <;> omega
    · intro xs _ hf
      cases xs <;> simp only [lsize] at hf <;> omega
    · intro xs _ hf
      omega
  | succ g ih =>
    obtain ⟨ihSh, ihTr, ihDi, ihSe, ihAr⟩ := ih
    have stepStable : ∀ v, stableB t.rpr v = true → 2 * vsize v ≤ g →
        traverseStep t g v = .ok v := by
      intro v hst hf
      cases v with
      | dict es =>
        have hle : es.length ≤ t.rpr.maxdict := by
          simp only [stableB, Bool.and_eq_true, decide_eq_true_eq] at hst
          exact hst.1
        rw [traverseStep_dict,
          show shorten_mapping (.dict es) t.rpr.maxdict = .dict es from by
            simp [shorten_mapping, hle]]
        exact ihTr (.dict es) hst (by omega)
      | list xs =>
        have hle : xs.length ≤ t.rpr.maxlist := by
          simp only [stableB, Bool.and_eq_true, decide_eq_true_eq] at hst
          exact hst.1
        rw [traverseStep_list, shorten_sequence_le (show pyLen (.list xs) ≤ _ from hle)]
        exact ihTr (.list xs) hst (by omega)
      | tuple xs =>
        have hxs : xs = [] := by
          cases xs with
          | nil => rfl
          | cons a r => simp [stableB] at hst
        subst hxs
        rw [traverseStep_tuple,
          shorten_sequence_le (show pyLen (.tuple ([] : List Value)) ≤ _ from Nat.zero_le _)]
        exact ihTr (.tuple []) hst (by simp only [vsize, lsize] at hf ⊢; omega)
      | array xs =>
        have hle : xs.length ≤ t.rpr.maxarray := by
          simp only [stableB, Bool.and_eq_true, decide_eq_true_eq] at hst
          exact hst.1
        rw [traverseStep_array, shorten_sequence_le (show pyLen (.array xs) ≤ _ from hle)]
        exact ihTr (.array xs) hst (by omega)
      | deque xs =>
        have hle : xs.length ≤ t.rpr.maxdeque := by
          simp only [stableB, Bool.and_eq_true, decide_eq_true_eq] at hst
          exact hst.1
        rw [traverseStep_deque, shorten_sequence_le (show pyLen (.deque xs) ≤ _ from hle)]
        exact ihTr (.deque xs) hst (by omega)
      | str s =>
        rw [traverseStep_str]
        exact ihSh (.str s) hst hf
      | int n =>
        rw [traverseStep_int]
        exact ihSh (.int n) hst hf
      | none =>
        rw [traverseStep_none]
        exact ihSh Value.none hst hf
      | set xs => simp [stableB] at hst
      | frozenset xs => simp [stableB] at hst
      | mapLike es s => simp [stableB] at hst
      | obj c sf i => simp [stableB] at hst
    refine ⟨?_, ?_, ?_, ?_, ?_⟩
    · intro v hst hf
      cases v with
      | dict es =>
        have hle : es.length ≤ t.rpr.maxdict := by
          simp only [stableB, Bool.and_eq_true, decide_eq_true_eq] at hst
          exact hst.1
        rw [shortenF_succ_dict,
          show shorten_mapping (.dict es) t.rpr.maxdict = .dict es from by
            simp [shorten_mapping, hle]]
        exact ihTr (.dict es) hst (by omega)
      | str s =>
        have hle : s.length ≤ t.rpr.maxstring := by
          simp only [stableB, decide_eq_true_eq] at hst
          exact hst
        rw [shortenF_succ_str, shorten_sequence_le (show pyLen (.str s) ≤ _ from hle)]
        rfl
      | int n =>
        have hle : (intStr n).length ≤ t.rpr.maxlong := by
          simp only [stableB, decide_eq_true_eq] at hst
          exact hst
        rw [shortenF_succ_int]
        simp only [shorten_basic, if_pos hle]
        rfl
      | list xs =>
        have hle : xs.length ≤ t.rpr.maxlist := by
          simp only [stableB, Bool.and_eq_true, decide_eq_true_eq] at hst
          exact hst.1
        rw [shortenF_succ_list, shorten_sequence_le (show pyLen (.list xs) ≤ _ from hle)]
        exact ihTr (.list xs) hst (by omega)
      | tuple xs =>
        have hxs : xs = [] := by
          cases xs with
          | nil => rfl
          | cons a r => simp [stableB] at hst
        subst hxs
        rw [shortenF_succ_tuple,
          shorten_sequence_le (show pyLen (.tuple ([] : List Value)) ≤ _ from Nat.zero_le _)]
        exact ihTr (.tuple []) hst (by simp only [vsize, lsize] at hf ⊢; omega)
      | array xs =>
        have hle : xs.length ≤ t.rpr.maxarray := by
          simp only [stableB, Bool.and_eq_true, decide_eq_true_eq] at hst
          exact hst.1
        rw [shortenF_succ_array, shorten_sequence_le (show pyLen (.array xs) ≤ _ from hle)]
        exact ihTr (.array xs) hst (by omega)
      | deque xs =>
        have hle : xs.length ≤ t.rpr.maxdeque := by
          simp only [stableB, Bool.and_eq_true, decide_eq_true_eq] at hst
          exact hst.1
        rw [shortenF_succ_deque, shorten_sequence_le (show pyLen (.deque xs) ≤ _ from hle)]
        exact ihTr (.deque xs) hst (by omega)
      | none =>
        rw [shortenF_succ_none]
        rfl
      | set xs => simp [stableB] at hst
      | frozenset xs => simp [stableB] at hst
      | mapLike es s => simp [stableB] at hst
      | obj c sf i => simp [stableB] at hst
    · intro d hst hf
      cases d with
      | dict es =>
        have hvals : ∀ kv ∈ es, stableB t.rpr kv.2 = true := by
          simp only [stableB, Bool.and_eq_true] at hst
          exact (stE_all t.rpr es).mp hst.2
        refine traverseF_dict_build (ihDi es hvals ?_)
        simp only [vsize] at hf
        omega
      | list xs =>
        have hels : ∀ x ∈ xs, stableB t.rpr x = true := by
          simp only [stableB, Bool.and_eq_true] at hst
          exact (stL_all t.rpr xs).mp hst.2
        refine traverseF_list_build (ihSe xs hels ?_)
        simp only [vsize] at hf
        omega
      | deque xs =>
        have hels : ∀ x ∈ xs, stableB t.rpr x = true := by
          simp only [stableB, Bool.and_eq_true] at hst
          exact (stL_all t.rpr xs).mp hst.2
        refine traverseF_deque_build (ihSe xs hels ?_)
        simp only [vsize] at hf
        omega
      | array xs =>
        have hels : ∀ n ∈ xs, (intStr n).length ≤ t.rpr.maxlong := by
          simp only [stableB, Bool.and_eq_true, List.all_eq_true, decide_eq_true_eq] at hst
          exact hst.2
        refine traverseF_array_build (ihAr xs hels ?_)
        simp only [vsize] at hf
        omega
      | tuple xs =>
        have hxs : xs = [] := by
          cases xs with
          | nil => rfl
          | cons a r => simp [stableB] at hst
        subst hxs
        rfl
      | str s => rfl
      | int n => rfl
      | none => rfl
      | set xs => simp [stableB] at hst
      | frozenset xs => simp [stableB] at hst
      | mapLike es s => simp [stableB] at hst
      | obj c sf i => simp [stableB] at hst
    · intro es hall hf
      match es with
      | [] => rfl
      | (k, v) :: rest =>
        have hk := vsize_pos k
        have hv := stepStable v (hall (k, v) (List.mem_cons_self _ _))
          (by simp only [esize] at hf; omega)
        have hrest := ihDi rest (fun kv hkv => hall kv (List.mem_cons_of_mem _ hkv))
          (by simp only [esize] at hf; omega)
        exact dictItemsF_cons_build hv hrest
    · intro xs hall hf
      match xs with
      | [] => rfl
      | x :: rest =>
        have hx := stepStable x (hall x (List.mem_cons_self _ _))
          (by simp only [lsize] at hf; omega)
        have hrest := ihSe rest (fun y hy => hall y (List.mem_cons_of_mem _ hy))
          (by simp only [lsize] at hf; omega)
        exact seqItemsF_cons_build hx hrest
    · intro xs hall hf
      match xs with
      | [] => rfl
      | n :: rest =>
        have hn : shortenF t g (.int n) = .ok (.int n) :=
          ihSh (.int n)
            (by simp only [stableB, decide_eq_true_eq]
                exact hall n (List.mem_cons_self _ _))
            (by simp only [vsize, List.length_cons] at hf ⊢; omega)
        have hrest := ihAr rest (fun y hy => hall y (List.mem_cons_of_mem _ hy))
          (by simp only [List.length_cons] at hf; omega)
        exact arrayItemsF_cons_build hn hrest

/-- C3 (amended): the transform is not idempotent in general — a first-pass
summary string longer than `maxstring` is re-capped by a second pass — but
it is the identity on its stable class: any value whose containers are all
within their category caps with stable members, whose text leaves are within
`maxstring`, and whose numeric leaves are within `maxlong` (with only empty
tuples and no sets, frozensets, opaque or mapping-like values in visited
positions) is returned unchanged by the entry point, under every key.
Consequently a second application agrees with the first exactly when the
first application's output lands in this class. -/
theorem C3_stable_fixed_point (t : ShortenerTransform) (v key : Value)
    (hst : stableB t.rpr v = true) :
    t.default v key = .ok v := by
  unfold ShortenerTransform.default
  by_cases he : should_shorten t v key = true
  · rw [if_pos he]
    exact (shorten_stable_all t (2 * vsize v + 2)).1 v hst (by omega)
  · rw [if_neg he]
    rfl

/-- Witness for the amended C3: a stable dict is a fixed point of the
transform under an eligible key. -/
theorem C3_stable_fixed_point_witness :
    stableB trK.rpr c1winput = true ∧
    trK.default c1winput keyK = .ok c1winput :=
  ⟨rfl, C3_stable_fixed_point trK c1winput keyK rfl⟩

set_option maxRecDepth 100000 in
/-- Closed form of the `reprlib` summary of an over-limit list of six opaque
objects whose `repr` raises, for any class name: five untruncated
`<cls instance at 0x...>` descriptors joined with the fill value. -/
theorem repr_listobj_shape (cls : Str) :
    r5.repr (Value.list (List.replicate 6 (.obj cls Option.none 0)))
      = '[' :: (pyJoin (pchars ", ")
          [fallbackInstanceStr cls 0, fallbackInstanceStr cls 0,
           fallbackInstanceStr cls 0, fallbackInstanceStr cls 0,
           fallbackInstanceStr cls 0, fillv]
        ++ pchars "]") := rfl

/-- Length of the untruncated instance descriptor at object id 0: the class
name plus the fixed 18-character frame. -/
theorem fallbackInstanceStr_zero_len (cls : Str) :
    (fallbackInstanceStr cls 0).length = cls.length + 18 := by
  have h15 : (pchars " instance at 0x").length = 15 := rfl
  have hdig : (Nat.toDigits 16 0).length = 1 := rfl
  simp only [fallbackInstanceStr, List.length_cons, List.length_append, h15, hdig,
    List.length_nil]

/-- The summary of the six-object list grows linearly with the class name:
five descriptors of `cls.length + 18` characters, four separators, the fill
value and the brackets. -/
theorem repr_listobj_len (cls : Str) :
    (r5.repr (Value.list (List.replicate 6 (.obj cls Option.none 0)))).length
      = 5 * cls.length + 105 := by
  rw [repr_listobj_shape cls]
  have hj : ∀ (sep x y : Str) (rest : List Str),
      pyJoin sep (x :: y :: rest) = x ++ sep ++ pyJoin sep (y :: rest) :=
    fun _ _ _ _ => rfl
  have hj1 : ∀ (sep x : Str), pyJoin sep [x] = x := fun _ _ => rfl
  have hsep : (pchars ", ").length = 2 := rfl
  have hfil : fillv.length = 3 := rfl
  have hrb : (pchars "]").length = 1 := rfl
  simp only [hj, hj1, List.length_cons, List.length_append,
    fallbackInstanceStr_zero_len, hsep, hfil, hrb]
  omega

/-- Counterexample to C5 as stated: the summary string's length is not
bounded by the configuration alone.  On a concrete over-limit list of six
repr-raising objects with a 400-million-character class name, the summary
contains the untruncated `<cls instance at 0x...>` descriptors and its
2,000,000,105-character length exceeds the recursive configuration bound
`reprBound r5 r5.maxlevel = 327245215` under the same five-element list
cap. -/
theorem C5_summary_exceeds_config_bound :
    isSequenceType c5bad = true ∧ 5 < pyLen c5bad ∧
    shorten_sequence r5 c5bad 5 = .str (r5.repr c5bad) ∧
    reprBound r5 r5.maxlevel < (r5.repr c5bad).length := by
  have hp : pyLen c5bad = 6 := rfl
  refine ⟨rfl, by omega, shorten_sequence_gt (by omega), ?_⟩
  have h1 : (r5.repr c5bad).length
      = 5 * (List.replicate 400000000 'A').length + 105 :=
    repr_listobj_len (List.replicate 400000000 'A')
  have h2 : (List.replicate 400000000 'A').length = 400000000 :=
    List.length_replicate _ _
  have hB : reprBound r5 r5.maxlevel = 327245215 := rfl
  rw [h1, h2, hB]
  omega

/-- The failure is not tied to one bound: under the fixed five-element list
cap, for every `m` there is an in-scope sequence whose summary is longer
than `m`, so no function of the configuration alone caps the summary
length. -/
theorem shorten_summary_length_unbounded (m : Nat) :
    ∃ v : Value, isSequenceType v = true ∧ 5 < pyLen v ∧
      shorten_sequence r5 v 5 = .str (r5.repr v) ∧ m < (r5.repr v).length := by
  refine ⟨.list (List.replicate 6 (.obj (List.replicate (m + 1) 'A') Option.none 0)),
    rfl, by simp [pyLen], shorten_sequence_gt (by simp [pyLen]), ?_⟩
  rw [repr_listobj_len (List.replicate (m + 1) 'A'), List.length_replicate]
  omega
